import Mathlib

/-!
Verification of the implicit interval tree (`iit`) and its interpolation-index
extension (`iitii`) from `iitii.h`.

The C++ header is a template over a numeric position type `Pos`, an item type
`Item`, and two accessors `get_beg`, `get_end : const Item& -> Pos`.  We embed
the unsigned-integer instantiation (the one used by the repository's
benchmark): `Pos` is modelled as `Nat`, `std::numeric_limits<Pos>::min()` as
`0`, and `std::numeric_limits<Pos>::max()` as the constant `npos`.

Modelling conventions, each noted again at the definition it concerns:
* `std::size_t` ranks are `Nat`; the sentinel `nrank` returned by `left`/
  `right` at leaves is modelled by `Option Nat` (`none`), and the guard
  `subtree == nrank` in `scan` by matching on the option.
* `std::sort` (which only promises a sorted permutation; the relative order
  of elements tied under `operator<` is unspecified) is modelled by the
  deterministic sorted permutation `List.insertionSort`.
* loops whose trip count is bounded by the tree height are written with an
  explicit fuel argument that is always instantiated sufficiently large
  (`scan`'s recursion depth is bounded by the tree height — a bound the
  source states in its own comment — and the climb in `iitii::overlap` and
  the walk building `right_border_nodes` strictly increase the level, which
  is at most `root_level`).
* the floating-point regression in `iitii::train` is abstracted: a trained
  domain model is either absent (the NaN parameter row) or an arbitrary
  function computing the offset `size_t(max(0, roundf(w0 + w1*qbeg)))`
  together with the stored level.  All theorems about `iitii` quantify over
  every such parameter assignment, which includes the one `train` computes.
* `assert` has no effect in release builds and is not embedded.
-/

namespace Iitii

/-- Modelled `std::numeric_limits<Pos>::max()` for the verified unsigned
32-bit instantiation of the `Pos` template parameter. -/
def npos : Nat := 2 ^ 32 - 1

/-- Fuel-driven count of trailing one bits; `levelGo fuel r` equals the
number of trailing ones of `r` whenever `r < fuel`. -/
def levelGo : Nat → Nat → Nat
  | 0, _ => 0
  | fuel + 1, r => if r % 2 = 1 then levelGo fuel (r / 2) + 1 else 0

/-- A node's level: the number of one bits below the lowest zero bit of its
rank (`iit_base::level`). -/
def level (r : Nat) : Nat := levelGo (r + 1) r

/-- A node's parent (`iit_base::parent`, the non-root case; the source
returns the sentinel `nrank` at the root, and every call site guards
`node != root` first). -/
def parent (node : Nat) : Nat :=
  let lv := level node
  let ofs := 2 ^ lv
  if (node >>> (lv + 1)) % 2 = 1 then node - ofs else node + ofs

/-- A node's left child, or `none` at a leaf (`iit_base::left`; `nrank` is
modelled by `none`). -/
def left (node : Nat) : Option Nat :=
  let lv := level node
  if 0 < lv then some (node - 2 ^ (lv - 1)) else none

/-- A node's right child, or `none` at a leaf (`iit_base::right`). -/
def right (node : Nat) : Option Nat :=
  let lv := level node
  if 0 < lv then some (node + 2 ^ (lv - 1)) else none

/-- Leftmost leaf of a subtree (`iitii::leftmost_child`). -/
def leftmost_child (subtree : Nat) : Nat := subtree - (2 ^ level subtree - 1)

/-- Rightmost leaf of a subtree (`iitii::rightmost_child`). -/
def rightmost_child (subtree : Nat) : Nat := subtree + (2 ^ level subtree - 1)

/-- The geometry loop of the `iit_base` constructor after its first
iteration: starting from level `rl` (with implied full size `2^(rl+1)-1`),
increase the level while the full size is below `N`.  Fuel `N` is always
sufficient. -/
def geomGo (N : Nat) : Nat → Nat → Nat
  | 0, rl => rl
  | fuel + 1, rl => if 2 ^ (rl + 1) - 1 < N then geomGo N fuel (rl + 1) else rl

/-- Root level computed by the `iit_base` constructor loop.  For `N ≥ 1` the
loop body runs at least once (the state starts at `full_size = 0 < N`), so
the result is at least 1. -/
def root_level (N : Nat) : Nat := if N = 0 then 0 else geomGo N N 1

/-- Size of the full binary tree containing the `N` real nodes, as computed
by the constructor loop (`0` when `N = 0`). -/
def full_size (N : Nat) : Nat := if N = 0 then 0 else 2 ^ (root_level N + 1) - 1

/-- Rank of the root, `(1 << root_level) - 1`. -/
def root (N : Nat) : Nat := 2 ^ root_level N - 1

/-- Rank of the rightmost real leaf, `nodes.size() - (2 - nodes.size() % 2)`. -/
def rml (N : Nat) : Nat := N - (2 - N % 2)

/-- The walk from a rank to the root along `parent`, with fuel; models the
`while (back != root) push(parent(back))` loop building
`right_border_nodes`. -/
def chainFuel (root_ : Nat) : Nat → Nat → List Nat
  | 0, r => [r]
  | fuel + 1, r => if r = root_ then [r] else r :: chainFuel root_ fuel (parent r)

/-- The ranks of the nodes on the border between real and imaginary nodes:
the path from the rightmost real leaf to the root (`right_border_nodes` in
the `iit_base` constructor).  The walk ascends one level per step, so fuel
`root_level N` reaches the root exactly. -/
def right_border (N : Nat) : List Nat := chainFuel (root N) (root_level N) (rml N)

/-- Closed form of the border node at level `l`: the level-`l` ancestor of
the rightmost real leaf (a proof-side characterisation of
`right_border N`, not part of the embedded code). -/
def borderF (N l : Nat) : Nat := rml N / 2 ^ (l + 1) * 2 ^ (l + 1) + 2 ^ l - 1

/-- Interval begin at a rank of the sorted node array (out-of-range reads,
which the source never performs, default to 0). -/
def begAt {Item : Type} (get_beg : Item → Nat) (s : List Item) (k : Nat) : Nat :=
  (s[k]?.map get_beg).getD 0

/-- Interval end at a rank of the sorted node array. -/
def endAt {Item : Type} (get_end : Item → Nat) (s : List Item) (k : Nat) : Nat :=
  (s[k]?.map get_end).getD 0

/-- `iit_node_base::operator<`: order by interval begin, ties by end. -/
def node_lt {Item : Type} (get_beg get_end : Item → Nat) (a b : Item) : Prop :=
  if get_beg a = get_beg b then get_end a < get_end b else get_beg a < get_beg b

instance {Item : Type} (get_beg get_end : Item → Nat) :
    DecidableRel (node_lt get_beg get_end) := fun a b => by
  unfold node_lt; infer_instance

/-- The non-strict order induced by `operator<` (`¬(b < a)`), the order in
which `std::sort` leaves the node array. -/
def node_le {Item : Type} (get_beg get_end : Item → Nat) (a b : Item) : Prop :=
  ¬ node_lt get_beg get_end b a

instance {Item : Type} (get_beg get_end : Item → Nat) :
    DecidableRel (node_le get_beg get_end) := fun a b => by
  unfold node_le; infer_instance

/-- The sorted node array: `std::sort(nodes.begin(), nodes.end())` with the
node order above.  `std::sort` promises a permutation sorted under
`operator<` with unspecified relative order of tied elements; it is
modelled by the deterministic sorted permutation `List.insertionSort`. -/
def sortedItems {Item : Type} (get_beg get_end : Item → Nat) (items : List Item) : List Item :=
  List.insertionSort (node_le get_beg get_end) items

/-- One step of the bottom-up `inside_max_end` indexing loop in the
`iit_base` constructor, at node `n` of the current level: take the node's
own end, its left child's augment, and either its right child's augment
(when the right child is real) or the last border observation; store the
result and refresh the border observation when `n` is the border node of
this level (`border_lv`). -/
def imeStep {Item : Type} (get_end : Item → Nat) (s : List Item) (border_lv : Nat)
    (st : List Nat × Nat) (n : Nat) : List Nat × Nat :=
  let ime := st.1
  let v1 := max (endAt get_end s n) ((left n).elim 0 (fun k => ime.getD k 0))
  let v := match right n with
    | some rn => if rn < s.length then max v1 (ime.getD rn 0) else max v1 st.2
    | none => max v1 st.2
  (ime.set n v, if n = border_lv then v else st.2)

/-- The ranks visited by the inner loop of the bottom-up indexing at level
`lv`: `n = (1 << lv) - 1`, stepping by `1 << (lv+1)`, while `n < N`.  The
length argument is the trip count of that loop. -/
def levelRanks (N lv : Nat) : List Nat :=
  List.range' (2 ^ lv - 1) ((N + 2 ^ lv) / 2 ^ (lv + 1)) (2 ^ (lv + 1))

/-- The `inside_max_end` array produced by the `iit_base` constructor on the
sorted node array `s`: every node starts with its own end (the
`iit_node_base` constructor), then levels `1 .. root_level` are indexed
bottom-up tracking the border observation, whose initial value is the
augment of the rightmost real leaf. -/
def buildIME {Item : Type} (get_end : Item → Nat) (s : List Item) : List Nat :=
  let N := s.length
  let init := s.map get_end
  if N = 0 then init else
  ((List.range' 1 (root_level N)).foldl
     (fun st lv => (levelRanks N lv).foldl (imeStep get_end s ((right_border N).getD lv 0)) st)
     (init, init.getD (rml N) 0)).1

/-- `iit_base::scan`: top-down overlap scan of a subtree for `[qbeg, qend)`,
returning the number of nodes visited and the items appended to the output
buffer, in order.  The first argument is fuel for the recursion, whose
depth the source bounds by the tree height; all call sites pass
`root_level + 1`, which exceeds the level of every rank they pass. -/
def scan {Item : Type} (get_beg get_end : Item → Nat) (s : List Item) (ime : List Nat) :
    Nat → Option Nat → Nat → Nat → Nat × List Item
  | 0, _, _, _ => (0, [])
  | _ + 1, none, _, _ => (0, [])
  | fuel + 1, some subtree, qbeg, qend =>
    if h : subtree < s.length then
      if qbeg < ime.getD subtree 0 then
        let resl := scan get_beg get_end s ime fuel (left subtree) qbeg qend
        if get_beg s[subtree] < qend then
          let hit := if qbeg < get_end s[subtree] then [s[subtree]] else []
          let resr := scan get_beg get_end s ime fuel (right subtree) qbeg qend
          (1 + resl.1 + resr.1, resl.2 ++ hit ++ resr.2)
        else (1 + resl.1, resl.2)
      else (1, [])
    else
      let resl := scan get_beg get_end s ime fuel (left subtree) qbeg qend
      (1 + resl.1, resl.2)

/-- `iit::overlap` on an index built from `items`: sort, index, and scan
from the root; returns the cost and the result buffer. -/
def iit_overlap {Item : Type} (get_beg get_end : Item → Nat) (items : List Item)
    (qbeg qend : Nat) : Nat × List Item :=
  let s := sortedItems get_beg get_end items
  scan get_beg get_end s (buildIME get_end s) (root_level s.length + 1)
    (some (root s.length)) qbeg qend

/-- The running maximum of interval ends along the sorted array
(`running_max_end` in the `iitii` constructor). -/
def running_max_end {Item : Type} (get_end : Item → Nat) (s : List Item) : List Nat :=
  match s.map get_end with
  | [] => []
  | e :: rest => List.scanl max e rest

/-- The backward tie-skipping walk in the `iitii` constructor: from `leq`,
decrement while the begin at `leq` equals `b`, stopping at rank 0. -/
def skipTies {Item : Type} (get_beg : Item → Nat) (s : List Item) (b : Nat) : Nat → Nat
  | 0 => 0
  | leq + 1 => if begAt get_beg s (leq + 1) = b then skipTies get_beg s b leq else leq + 1

/-- The `outside_max_end` array filled by the `iitii` constructor: for each
rank `n` with a non-zero leftmost child, walk back from `l - 1` over nodes
tied on begin; if the reached node's begin is strictly below `n`'s, the
augment is the running max end at that rank, otherwise the minimum `Pos`
(0 for the unsigned instantiation), which is also the initial value from
the `iitii_node` constructor. -/
def outside_max_end_list {Item : Type} (get_beg get_end : Item → Nat) (s : List Item) :
    List Nat :=
  (List.range s.length).map (fun n =>
    let l := leftmost_child n
    if 0 < l then
      let leq := skipTies get_beg s (begAt get_beg s n) (l - 1)
      if begAt get_beg s leq < begAt get_beg s n then (running_max_end get_end s).getD leq 0
      else 0
    else 0)

/-- `iitii::outside_min_beg`: constant-time computation from the sorted
order; `beg(subtree)` when the node just left of the subtree ties on begin,
else the begin of the node one past the rightmost child, or `npos` when
there is none. -/
def outside_min_beg {Item : Type} (get_beg : Item → Nat) (s : List Item) (subtree : Nat) : Nat :=
  let b := begAt get_beg s subtree
  let l := leftmost_child subtree
  if 0 < l ∧ begAt get_beg s (l - 1) = b then b
  else
    let r := rightmost_child subtree
    if r < s.length - 1 then begAt get_beg s (r + 1) else npos

/-- One trained domain row of the interpolation model.  The source stores
three floats `(w0, w1, level)`; the floating-point evaluation
`size_t(max(0.0f, roundf(w0 + w1*qbeg)))` is abstracted as the arbitrary
offset function `w`, and `lv` is the stored level. -/
structure DomainParams where
  w : Nat → Nat
  lv : Nat

/-- An `iitii` index: the buffered items plus the model configuration.  The
node array and augments are derived by the definitions below, exactly as
the constructor computes them.  `params` maps a domain to its trained row,
`none` standing for the NaN row that signals "no prediction". -/
structure IitiiIndex (Item : Type) where
  items : List Item
  domains : Nat
  params : Nat → Option DomainParams

/-- `iitii::iitii` via the builder: clamp the domain count to at least 1;
when there are no nodes, `train` never runs and every parameter row keeps
its NaN initialisation.  The abstract rows `M` stand for whatever `train`
computed (theorems below hold for every `M`). -/
def iitii_build {Item : Type} (items : List Item) (domains_ : Nat)
    (M : Nat → Option DomainParams) : IitiiIndex Item :=
  ⟨items, max 1 domains_, if items.length = 0 then fun _ => none else M⟩

/-- `min_beg` of an `iitii` index: begin of the first sorted node, or its
`npos` field initialiser when the index is empty. -/
def min_beg {Item : Type} (get_beg get_end : Item → Nat) (t : IitiiIndex Item) : Nat :=
  let s := sortedItems get_beg get_end t.items
  if s.length = 0 then npos else begAt get_beg s 0

/-- `domain_size` of an `iitii` index: `1 + (max_beg - min_beg) / domains`,
or its `npos` field initialiser when the index is empty. -/
def domain_size {Item : Type} (get_beg get_end : Item → Nat) (t : IitiiIndex Item) : Nat :=
  let s := sortedItems get_beg get_end t.items
  if s.length = 0 then npos
  else 1 + (begAt get_beg s (s.length - 1) - min_beg get_beg get_end t) / t.domains

/-- `iitii::which_domain`. -/
def which_domain {Item : Type} (get_beg get_end : Item → Nat) (t : IitiiIndex Item)
    (beg : Nat) : Nat :=
  if beg < min_beg get_beg get_end t then 0
  else min (t.domains - 1) ((beg - min_beg get_beg get_end t) / domain_size get_beg get_end t)

/-- `iitii::predict_leaf`: select the query's domain; a NaN row yields no
prediction; otherwise compute the offset, map it to a rank at the stored
level, and clamp an imaginary rank to the rightmost real leaf. -/
def predict_leaf {Item : Type} (get_beg get_end : Item → Nat) (t : IitiiIndex Item)
    (qbeg : Nat) : Option Nat :=
  match t.params (which_domain get_beg get_end t qbeg) with
  | none => none
  | some p =>
    let ofs := p.w qbeg
    let r := 2 ^ p.lv * (2 * ofs + 1) - 1
    let nsz := (sortedItems get_beg get_end t.items).length
    some (if r < nsz then r else nsz - (2 - nsz % 2))

/-- The climb loop of `iitii::overlap`: ascend while not at the root and the
subtree is imaginary, or an outside node to the left may still overlap, or
an outside node to the right may still overlap.  Fuel-driven; each step
increases the level, so fuel `root_level + 1` never runs out on the ranks
the query passes. -/
def climbGo {Item : Type} (get_beg : Item → Nat) (s : List Item) (ome : List Nat)
    (root_ qbeg qend : Nat) : Nat → Nat → Nat → Nat × Nat
  | 0, subtree, cost => (subtree, cost)
  | fuel + 1, subtree, cost =>
    if subtree ≠ root_ ∧ (s.length ≤ subtree ∨ qbeg < ome.getD subtree 0 ∨
        outside_min_beg get_beg s subtree < qend) then
      climbGo get_beg s ome root_ qbeg qend fuel (parent subtree) (cost + 1)
    else (subtree, cost)

/-- The two diagnostic counters of `iitii`. -/
structure Counters where
  queries : Nat
  total_climb_cost : Nat
  deriving DecidableEq

/-- The number of climb steps `iitii::overlap` takes from a predicted leaf
(the final `climb_cost`). -/
def climbSteps {Item : Type} (get_beg get_end : Item → Nat) (t : IitiiIndex Item)
    (qbeg qend prediction : Nat) : Nat :=
  let s := sortedItems get_beg get_end t.items
  (climbGo get_beg s (outside_max_end_list get_beg get_end s) (root s.length) qbeg qend
    (root_level s.length + 1) prediction 0).2

/-- `iitii::overlap`: ask the model for a starting leaf; with no prediction,
delegate to the root scan of `iit_base::overlap` leaving the counters
unchanged; otherwise climb, bump the counters, scan the reached subtree and
add the climb cost to the reported cost. -/
def iitii_overlap {Item : Type} (get_beg get_end : Item → Nat) (t : IitiiIndex Item)
    (qbeg qend : Nat) (c : Counters) : Nat × List Item × Counters :=
  let s := sortedItems get_beg get_end t.items
  let ime := buildIME get_end s
  match predict_leaf get_beg get_end t qbeg with
  | none =>
    let res := scan get_beg get_end s ime (root_level s.length + 1) (some (root s.length)) qbeg qend
    (res.1, res.2, c)
  | some prediction =>
    let cl := climbGo get_beg s (outside_max_end_list get_beg get_end s) (root s.length)
      qbeg qend (root_level s.length + 1) prediction 0
    let res := scan get_beg get_end s ime (root_level s.length + 1) (some cl.1) qbeg qend
    (res.1 + cl.2, res.2, ⟨c.queries + 1, c.total_climb_cost + cl.2⟩)

/-- `iit_builder_base::add(item)`: append one item to the buffer. -/
def builder_add {Item : Type} (buf : List Item) (item_ : Item) : List Item := buf ++ [item_]

/-- `iit_builder_base::add(begin, end)`: append each element in order. -/
def builder_add_all {Item : Type} (buf : List Item) (new_ : List Item) : List Item :=
  new_.foldl builder_add buf

/-- The builder buffer after adding `items` one at a time. -/
def build_stream {Item : Type} (items : List Item) : List Item := items.foldl builder_add []

/-- The builder buffer after adding `items` through the bulk range path. -/
def build_bulk {Item : Type} (items : List Item) : List Item := builder_add_all [] items

/-- The node array of an `iit` index built from `items`: each sorted item
paired with its `inside_max_end` augment. -/
def node_array {Item : Type} (get_beg get_end : Item → Nat) (items : List Item) :
    List (Item × Nat) :=
  let s := sortedItems get_beg get_end items
  s.zip (buildIME get_end s)

/-- The overlap predicate of the glossary: item `x` overlaps `[qbeg, qend)`
iff `qbeg < end(x) ∧ beg(x) < qend`. -/
def overlapB {Item : Type} (get_beg get_end : Item → Nat) (qbeg qend : Nat) (x : Item) : Bool :=
  decide (qbeg < get_end x) && decide (get_beg x < qend)

/-- Oracle for `scan`: the items at the real ranks of the window
`[lo, lo+len)` that overlap the query, in rank order. -/
def oracleScan {Item : Type} (get_beg get_end : Item → Nat) (s : List Item)
    (qbeg qend lo len : Nat) : List Item :=
  (List.range' lo len).filterMap (fun k =>
    match s[k]? with
    | some it => if overlapB get_beg get_end qbeg qend it then some it else none
    | none => none)

/-- Membership of rank `k` in the subtree of a node of level `l` at rank
`n` (the rank interval `[n - (2^l - 1), n + (2^l - 1)]`). -/
def inSub (l n k : Nat) : Bool := decide (n < k + 2 ^ l) && decide (k < n + 2 ^ l)

/-- Maximum of `end` over the real ranks satisfying `p`, with 0 (the
minimum of the unsigned `Pos`) for the empty set. -/
def maxEndOver {Item : Type} (get_end : Item → Nat) (s : List Item) (p : Nat → Bool) : Nat :=
  ((List.range s.length).filter p).foldr (fun k a => max (endAt get_end s k) a) 0

/-- Specified value of `inside_max_end(n)`: the maximum end over `n` and the
real nodes of its subtree. -/
def subtree_max_end {Item : Type} (get_end : Item → Nat) (s : List Item) (n : Nat) : Nat :=
  maxEndOver get_end s (fun k => inSub (level n) n k)

/-- Specified value of `outside_max_end(n)`: the maximum end over real nodes
outside `n`'s subtree with begin strictly below `n`'s, or the minimum `Pos`
(0) when there is none. -/
def ome_spec {Item : Type} (get_beg get_end : Item → Nat) (s : List Item) (n : Nat) : Nat :=
  maxEndOver get_end s
    (fun k => !inSub (level n) n k && decide (begAt get_beg s k < begAt get_beg s n))

/-- Specified value of `outside_min_beg(n)`: the minimum begin over real
nodes outside `n`'s subtree with begin at least `n`'s, or `npos` when that
set is empty. -/
def omb_spec {Item : Type} (get_beg : Item → Nat) (s : List Item) (n : Nat) : Nat :=
  ((((List.range s.length).filter
      (fun k => !inSub (level n) n k && decide (begAt get_beg s n ≤ begAt get_beg s k))).map
    (begAt get_beg s)).min?).getD npos

/-- Concrete item type for witnesses: `(beg, end)` pairs, as in the header's
own usage example. -/
def pair_beg (x : Nat × Nat) : Nat := x.1

/-- End accessor of the pair item type. -/
def pair_end (x : Nat × Nat) : Nat := x.2

/-- Concrete item type with an identifier: `(beg, end, id)` triples, as in
the spec's end-to-end scenarios. -/
def trip_beg (x : Nat × Nat × Nat) : Nat := x.1

/-- End accessor of the triple item type. -/
def trip_end (x : Nat × Nat × Nat) : Nat := x.2.1

/-! ## Level arithmetic -/

theorem levelGo_irrel : ∀ f f' r, r < f → r < f' → levelGo f r = levelGo f' r := by
  intro f
  induction f with
  | zero => intro f' r h; omega
  | succ f ih =>
    intro f' r hf hf'
    match f', hf' with
    | f' + 1, hf' =>
      simp only [levelGo]
      by_cases h2 : r % 2 = 1
      · simp only [h2, if_true]
        have hr : 0 < r := by omega
        rw [ih f' (r / 2) (by omega) (by omega)]
      · simp [h2]

theorem level_unfold (r : Nat) : level r = if r % 2 = 1 then level (r / 2) + 1 else 0 := by
  show levelGo (r + 1) r = _
  rw [show levelGo (r + 1) r = if r % 2 = 1 then levelGo r (r / 2) + 1 else 0 from rfl]
  by_cases h2 : r % 2 = 1
  · simp only [h2, if_true]
    have hr : 0 < r := by omega
    rw [levelGo_irrel r (r / 2 + 1) (r / 2) (by omega) (by omega)]
    rfl
  · simp [h2]

/-- `r % (2m)` in terms of `r % 2` and `(r / 2) % m`. -/
theorem mod_double (r m : Nat) (hm : 0 < m) : r % (2 * m) = 2 * (r / 2 % m) + r % 2 := by
  have h1 : r = 2 * (r / 2) + r % 2 := (Nat.div_add_mod r 2).symm.trans (by ring)
  have h2 : r / 2 = m * (r / 2 / m) + r / 2 % m := (Nat.div_add_mod _ m).symm
  have hmul : (2 * m) * (r / 2 / m) = 2 * (m * (r / 2 / m)) := by ring
  have h3 : r = 2 * (r / 2 % m) + r % 2 + (2 * m) * (r / 2 / m) := by omega
  have h4 := Nat.mod_lt (r / 2) hm
  have h5 := Nat.mod_lt r (show 0 < 2 by omega)
  conv_lhs => rw [h3]
  rw [Nat.add_mul_mod_self_left]
  exact Nat.mod_eq_of_lt (by omega)

/-- Characterisation of `level` as a condition on the rank modulo a power
of two: a node has level `l` iff its rank ends in exactly `l` one bits. -/
theorem level_eq_iff : ∀ l r, level r = l ↔ r % 2 ^ (l + 1) = 2 ^ l - 1 := by
  intro l
  induction l with
  | zero =>
    intro r
    rw [level_unfold]
    have hp : (2 : Nat) ^ (0 + 1) = 2 := by norm_num
    have hp0 : (2 : Nat) ^ 0 = 1 := by norm_num
    rw [hp, hp0]
    by_cases h2 : r % 2 = 1
    · simp only [h2, if_true]
      constructor
      · intro h; omega
      · intro h; omega
    · simp only [h2, if_false]
      constructor
      · intro _; omega
      · intro _; trivial
  | succ l ih =>
    intro r
    rw [level_unfold]
    by_cases h2 : r % 2 = 1
    · simp only [h2, if_true]
      have hmod : r % (2 * 2 ^ (l + 1)) = 2 * (r / 2 % 2 ^ (l + 1)) + r % 2 :=
        mod_double r (2 ^ (l + 1)) (Nat.pos_pow_of_pos _ (by omega))
      have hp1 : (2 : Nat) ^ (l + 1 + 1) = 2 * 2 ^ (l + 1) := by ring
      have hp2 : (2 : Nat) ^ (l + 1) = 2 * 2 ^ l := by ring
      have hpos : 0 < 2 ^ l := Nat.pos_pow_of_pos _ (by omega)
      rw [hp1, hmod]
      constructor
      · intro h
        have := (ih (r / 2)).mp (by omega)
        omega
      · intro h
        have hq : r / 2 % 2 ^ (l + 1) = 2 ^ l - 1 := by omega
        have := (ih (r / 2)).mpr hq
        omega
    · simp only [h2, if_false]
      have hmod : r % (2 * 2 ^ (l + 1)) = 2 * (r / 2 % 2 ^ (l + 1)) + r % 2 :=
        mod_double r (2 ^ (l + 1)) (Nat.pos_pow_of_pos _ (by omega))
      have hp1 : (2 : Nat) ^ (l + 1 + 1) = 2 * 2 ^ (l + 1) := by ring
      have hp2 : (2 : Nat) ^ (l + 1) = 2 * 2 ^ l := by ring
      have hpos : 0 < 2 ^ l := Nat.pos_pow_of_pos _ (by omega)
      rw [hp1, hmod]
      constructor
      · intro h; omega
      · intro h; omega

/-- Additive form of the level characterisation, convenient for arithmetic
without truncated subtraction. -/
theorem level_succ_mod (r l : Nat) : level r = l ↔ (r + 1) % 2 ^ (l + 1) = 2 ^ l := by
  rw [level_eq_iff]
  have hpos : 0 < 2 ^ l := Nat.pos_pow_of_pos _ (by omega)
  have hp2 : (2 : Nat) ^ (l + 1) = 2 * 2 ^ l := by ring
  have h1 := Nat.mod_lt r (show 0 < 2 ^ (l + 1) from by omega)
  constructor
  · intro h
    have hd : r = 2 ^ (l + 1) * (r / 2 ^ (l + 1)) + (2 ^ l - 1) := by
      have := Nat.div_add_mod r (2 ^ (l + 1)); omega
    have : r + 1 = 2 ^ l + (2 ^ (l + 1)) * (r / 2 ^ (l + 1)) := by omega
    rw [this, Nat.add_mul_mod_self_left, Nat.mod_eq_of_lt (by omega)]
  · intro h
    have hd : r + 1 = 2 ^ (l + 1) * ((r + 1) / 2 ^ (l + 1)) + 2 ^ l := by
      have := Nat.div_add_mod (r + 1) (2 ^ (l + 1)); omega
    have : r = 2 ^ l - 1 + (2 ^ (l + 1)) * ((r + 1) / 2 ^ (l + 1)) := by omega
    rw [this, Nat.add_mul_mod_self_left, Nat.mod_eq_of_lt (by omega)]

/-- Decomposition of a rank of known level. -/
theorem level_decomp {r l : Nat} (h : level r = l) :
    ∃ q, r + 1 = q * 2 ^ (l + 1) + 2 ^ l := by
  have h1 := (level_succ_mod r l).mp h
  refine ⟨(r + 1) / 2 ^ (l + 1), ?_⟩
  have h2 := Nat.div_add_mod (r + 1) (2 ^ (l + 1))
  have hc : (r + 1) / 2 ^ (l + 1) * 2 ^ (l + 1) = 2 ^ (l + 1) * ((r + 1) / 2 ^ (l + 1)) := by
    ring
  omega

/-- Converse: a rank of that shape has level `l`. -/
theorem level_of_decomp {r l q : Nat} (h : r + 1 = q * 2 ^ (l + 1) + 2 ^ l) :
    level r = l := by
  rw [level_succ_mod, h, Nat.add_comm, Nat.mul_comm, Nat.add_mul_mod_self_left,
    Nat.mod_eq_of_lt]
  have hp2 : (2 : Nat) ^ (l + 1) = 2 * 2 ^ l := by ring
  have hpos : 0 < 2 ^ l := Nat.pos_pow_of_pos _ (by omega)
  omega

theorem level_ge {r l : Nat} (h : level r = l) : 2 ^ l ≤ r + 1 := by
  obtain ⟨q, hq⟩ := level_decomp h
  omega

/-- Decomposition with the explicit quotient. -/
theorem level_div_decomp {r l : Nat} (h : level r = l) :
    r + 1 = (r + 1) / 2 ^ (l + 1) * 2 ^ (l + 1) + 2 ^ l := by
  have h1 := (level_succ_mod r l).mp h
  have h2 := Nat.div_add_mod (r + 1) (2 ^ (l + 1))
  have hc : (r + 1) / 2 ^ (l + 1) * 2 ^ (l + 1) = 2 ^ (l + 1) * ((r + 1) / 2 ^ (l + 1)) := by
    ring
  omega

/-! ## Children and parent -/

theorem level_left_child {r l : Nat} (h : level r = l + 1) : level (r - 2 ^ l) = l := by
  obtain ⟨q, hq⟩ := level_decomp h
  apply level_of_decomp (q := 2 * q)
  have hmul : q * 2 ^ (l + 1 + 1) = 2 * q * 2 ^ (l + 1) := by ring
  have hp : (2 : Nat) ^ (l + 1) = 2 * 2 ^ l := by ring
  have hpos : 0 < 2 ^ l := Nat.pos_pow_of_pos _ (by omega)
  omega

theorem level_right_child {r l : Nat} (h : level r = l + 1) : level (r + 2 ^ l) = l := by
  obtain ⟨q, hq⟩ := level_decomp h
  apply level_of_decomp (q := 2 * q + 1)
  have hmul : q * 2 ^ (l + 1 + 1) = 2 * q * 2 ^ (l + 1) := by ring
  have hmul2 : (2 * q + 1) * 2 ^ (l + 1) = 2 * q * 2 ^ (l + 1) + 2 ^ (l + 1) := by ring
  have hp : (2 : Nat) ^ (l + 1) = 2 * 2 ^ l := by ring
  have hpos : 0 < 2 ^ l := Nat.pos_pow_of_pos _ (by omega)
  omega

theorem left_eq {r l : Nat} (h : level r = l + 1) : left r = some (r - 2 ^ l) := by
  simp [left, h]

theorem right_eq {r l : Nat} (h : level r = l + 1) : right r = some (r + 2 ^ l) := by
  simp [right, h]

theorem left_leaf {r : Nat} (h : level r = 0) : left r = none := by
  simp [left, h]

theorem right_leaf {r : Nat} (h : level r = 0) : right r = none := by
  simp [right, h]

/-- The quotient of a rank by the width of its level block. -/
theorem rank_div {r l : Nat} (h : level r = l) :
    r / 2 ^ (l + 1) = (r + 1) / 2 ^ (l + 1) := by
  have hd := level_div_decomp h
  have hpos : 0 < 2 ^ l := Nat.pos_pow_of_pos _ (by omega)
  have hp : (2 : Nat) ^ (l + 1) = 2 * 2 ^ l := by ring
  have hr : r = 2 ^ l - 1 + 2 ^ (l + 1) * ((r + 1) / 2 ^ (l + 1)) := by
    have hc : (r + 1) / 2 ^ (l + 1) * 2 ^ (l + 1) = 2 ^ (l + 1) * ((r + 1) / 2 ^ (l + 1)) := by
      ring
    omega
  conv_lhs => rw [hr]
  rw [Nat.add_mul_div_left _ _ (show 0 < 2 ^ (l + 1) by omega),
    Nat.div_eq_of_lt (by omega)]
  omega

/-- Uniform closed form for the parent of a rank of level `l`. -/
theorem parent_succ {r l : Nat} (h : level r = l) :
    parent r + 1 = (r + 1) / 2 ^ (l + 1) / 2 * 2 ^ (l + 2) + 2 ^ (l + 1) := by
  have hd := level_div_decomp h
  have hpos : 0 < 2 ^ l := Nat.pos_pow_of_pos _ (by omega)
  have hp : (2 : Nat) ^ (l + 1) = 2 * 2 ^ l := by ring
  set q := (r + 1) / 2 ^ (l + 1) with hqdef
  have hq2 := Nat.div_add_mod q 2
  have hsh : r >>> (l + 1) = q := by
    rw [Nat.shiftRight_eq_div_pow, rank_div h]
  simp only [parent, h]
  rw [hsh]
  rcases Nat.mod_two_eq_zero_or_one q with hpar | hpar
  · have he : (2 * (q / 2)) * 2 ^ (l + 1) = q / 2 * 2 ^ (l + 2) := by ring
    have hqq : q * 2 ^ (l + 1) = (2 * (q / 2)) * 2 ^ (l + 1) := by
      have : q = 2 * (q / 2) := by omega
      rw [← this]
    simp only [hpar]
    norm_num
    omega
  · have he : (2 * (q / 2) + 1) * 2 ^ (l + 1) = q / 2 * 2 ^ (l + 2) + 2 ^ (l + 1) := by ring
    have hqq : q * 2 ^ (l + 1) = (2 * (q / 2) + 1) * 2 ^ (l + 1) := by
      have : q = 2 * (q / 2) + 1 := by omega
      rw [← this]
    simp only [hpar]
    norm_num
    omega

theorem level_parent {r l : Nat} (h : level r = l) : level (parent r) = l + 1 := by
  have hp := parent_succ h
  exact level_of_decomp (q := (r + 1) / 2 ^ (l + 1) / 2) (by
    have : l + 1 + 1 = l + 2 := by omega
    rw [this]
    exact hp)

/-! ## Tree geometry -/

theorem geomGo_ge (N : Nat) : ∀ fuel rl, N ≤ 2 ^ (rl + fuel + 1) - 1 →
    N ≤ 2 ^ (geomGo N fuel rl + 1) - 1 := by
  intro fuel
  induction fuel with
  | zero => intro rl h; simpa [geomGo] using h
  | succ fuel ih =>
    intro rl h
    simp only [geomGo]
    by_cases hc : 2 ^ (rl + 1) - 1 < N
    · simp only [hc, if_true]
      apply ih
      have he : rl + 1 + fuel + 1 = rl + (fuel + 1) + 1 := by omega
      rw [he]
      exact h
    · simp only [hc, if_false]
      omega

theorem geomGo_start_le (N : Nat) : ∀ fuel rl, rl ≤ geomGo N fuel rl := by
  intro fuel
  induction fuel with
  | zero => intro rl; simp [geomGo]
  | succ fuel ih =>
    intro rl
    simp only [geomGo]
    by_cases hc : 2 ^ (rl + 1) - 1 < N
    · simp only [hc, if_true]
      have := ih (rl + 1)
      omega
    · simp [hc]

theorem root_level_pos {N : Nat} (h : N ≠ 0) : 1 ≤ root_level N := by
  unfold root_level
  simp only [h, if_false]
  exact geomGo_start_le N N 1

theorem N_le_full_size {N : Nat} (h : N ≠ 0) : N ≤ full_size N := by
  unfold full_size root_level
  simp only [h, if_false]
  apply geomGo_ge
  have h1 : N < 2 ^ N := Nat.lt_two_pow N
  have h2 : (2 : Nat) ^ N ≤ 2 ^ (1 + N + 1) := Nat.pow_le_pow_right (by omega) (by omega)
  omega

theorem full_size_eq {N : Nat} (h : N ≠ 0) : full_size N = 2 ^ (root_level N + 1) - 1 := by
  unfold full_size
  simp [h]

theorem level_root (N : Nat) : level (root N) = root_level N := by
  apply level_of_decomp (q := 0)
  have hpos : 0 < 2 ^ root_level N := Nat.pos_pow_of_pos _ (by omega)
  unfold root
  omega

theorem root_lt_full_size {N : Nat} (h : N ≠ 0) : root N < full_size N := by
  rw [full_size_eq h]
  unfold root
  have hp : (2 : Nat) ^ (root_level N + 1) = 2 * 2 ^ root_level N := by ring
  have hpos : 0 < 2 ^ root_level N := Nat.pos_pow_of_pos _ (by omega)
  omega

theorem level_le_of_lt {r m : Nat} (h : r < 2 ^ (m + 1) - 1) : level r ≤ m := by
  by_contra hc
  have hge := level_ge (rfl : level r = level r)
  have h2 : 2 ^ (m + 1) ≤ 2 ^ level r := Nat.pow_le_pow_right (by omega) (by omega)
  omega

theorem level_lt_root_level {N r : Nat} (hN : N ≠ 0) (h : r < full_size N)
    (hr : r ≠ root N) : level r < root_level N := by
  rw [full_size_eq hN] at h
  have hle := level_le_of_lt h
  rcases Nat.lt_or_ge (level r) (root_level N) with hlt | hge
  · exact hlt
  · exfalso
    have heq : level r = root_level N := by omega
    obtain ⟨q, hq⟩ := level_decomp heq
    have hp : (2 : Nat) ^ (root_level N + 1) = 2 * 2 ^ root_level N := by ring
    have hpos : 0 < 2 ^ root_level N := Nat.pos_pow_of_pos _ (by omega)
    have hq0 : q * 2 ^ (root_level N + 1) < 1 * 2 ^ (root_level N + 1) := by omega
    have hz : q = 0 := by
      have := Nat.lt_of_mul_lt_mul_right hq0
      omega
    rw [hz, Nat.zero_mul] at hq
    apply hr
    unfold root
    omega

theorem parent_lt_full_size {N r : Nat} (hN : N ≠ 0) (h : r < full_size N)
    (hr : r ≠ root N) : parent r < full_size N := by
  have hl := level_lt_root_level hN h hr
  obtain ⟨l, hldef⟩ : ∃ l, level r = l := ⟨level r, rfl⟩
  rw [hldef] at hl
  have hps := parent_succ hldef
  have hd := level_div_decomp hldef
  obtain ⟨q, hqdef⟩ : ∃ q, (r + 1) / 2 ^ (l + 1) = q := ⟨_, rfl⟩
  rw [hqdef] at hps hd
  obtain ⟨u, hudef⟩ : ∃ u, q / 2 = u := ⟨_, rfl⟩
  rw [hudef] at hps
  rw [full_size_eq hN] at h ⊢
  obtain ⟨rl, hrldef⟩ : ∃ rl, root_level N = rl := ⟨_, rfl⟩
  rw [hrldef] at h hl ⊢
  by_contra hcon
  have hK : parent r + 1 ≥ 2 ^ (rl + 1) := by omega
  have hdvd : (2 : Nat) ^ (l + 2) ∣ 2 ^ (rl + 1) := pow_dvd_pow 2 (by omega)
  have hdvd2 : (2 : Nat) ^ (l + 2) ∣ u * 2 ^ (l + 2) := Dvd.intro_left u rfl
  have hp : (2 : Nat) ^ (l + 2) = 2 * 2 ^ (l + 1) := by ring
  have hp2 : (2 : Nat) ^ (l + 1) = 2 * 2 ^ l := by ring
  have hpos : 0 < 2 ^ l := Nat.pos_pow_of_pos _ (by omega)
  rcases Nat.lt_or_ge (u * 2 ^ (l + 2)) (2 ^ (rl + 1)) with hlt | hge
  · have hsub : (2 : Nat) ^ (l + 2) ∣ 2 ^ (rl + 1) - u * 2 ^ (l + 2) :=
      Nat.dvd_sub' hdvd hdvd2
    have hposd : 0 < 2 ^ (rl + 1) - u * 2 ^ (l + 2) := by omega
    have := Nat.le_of_dvd hposd hsub
    omega
  · have hq2 := Nat.div_add_mod q 2
    rw [hudef] at hq2
    have hmul : q * 2 ^ (l + 1) = (2 * u + q % 2) * 2 ^ (l + 1) := by
      have : q = 2 * u + q % 2 := by omega
      rw [← this]
    rcases Nat.mod_two_eq_zero_or_one q with hpar | hpar
    · have he : (2 * u + 0) * 2 ^ (l + 1) = u * 2 ^ (l + 2) := by ring
      rw [hpar] at hmul
      omega
    · have he : (2 * u + 1) * 2 ^ (l + 1) = u * 2 ^ (l + 2) + 2 ^ (l + 1) := by ring
      rw [hpar] at hmul
      omega

/-- The rank one past the rightmost child of any rank inside the full tree
stays inside the full tree (the rightmost child is a leaf, hence even,
while the last rank of the full tree is odd). -/
theorem rc_add_two_le {N r : Nat} (hN : N ≠ 0) (h : r < full_size N) :
    rightmost_child r + 2 ≤ 2 ^ (root_level N + 1) := by
  rw [full_size_eq hN] at h
  obtain ⟨l, hldef⟩ : ∃ l, level r = l := ⟨level r, rfl⟩
  have hle : l ≤ root_level N := by rw [← hldef]; exact level_le_of_lt (by omega)
  have hd := level_div_decomp hldef
  obtain ⟨q, hqdef⟩ : ∃ q, (r + 1) / 2 ^ (l + 1) = q := ⟨_, rfl⟩
  rw [hqdef] at hd
  obtain ⟨rl, hrldef⟩ : ∃ rl, root_level N = rl := ⟨_, rfl⟩
  rw [hrldef] at h hle ⊢
  have hrc : rightmost_child r + 2 = q * 2 ^ (l + 1) + 2 ^ (l + 1) := by
    unfold rightmost_child
    rw [hldef]
    have hp2 : (2 : Nat) ^ (l + 1) = 2 * 2 ^ l := by ring
    have hpos : 0 < 2 ^ l := Nat.pos_pow_of_pos _ (by omega)
    omega
  by_contra hcon
  have hdvd : (2 : Nat) ^ (l + 1) ∣ 2 ^ (rl + 1) := pow_dvd_pow 2 (by omega)
  have hdvd2 : (2 : Nat) ^ (l + 1) ∣ (q + 1) * 2 ^ (l + 1) := Dvd.intro_left _ rfl
  have he : (q + 1) * 2 ^ (l + 1) = q * 2 ^ (l + 1) + 2 ^ (l + 1) := by ring
  have hgt : (q + 1) * 2 ^ (l + 1) > 2 ^ (rl + 1) := by omega
  have hsub : (2 : Nat) ^ (l + 1) ∣ (q + 1) * 2 ^ (l + 1) - 2 ^ (rl + 1) :=
    Nat.dvd_sub' hdvd2 hdvd
  have hposd : 0 < (q + 1) * 2 ^ (l + 1) - 2 ^ (rl + 1) := by omega
  have := Nat.le_of_dvd hposd hsub
  have hp2 : (2 : Nat) ^ (l + 1) = 2 * 2 ^ l := by ring
  have hpos : 0 < 2 ^ l := Nat.pos_pow_of_pos _ (by omega)
  omega

/-! ## Subtree membership -/

theorem inSub_iff {l n k : Nat} : inSub l n k = true ↔ n < k + 2 ^ l ∧ k < n + 2 ^ l := by
  simp [inSub]

theorem inSub_self (l n : Nat) : inSub l n n = true := by
  have hpos : 0 < 2 ^ l := Nat.pos_pow_of_pos _ (by omega)
  rw [inSub_iff]
  omega

/-- Splitting the subtree of an internal node into the left child's
subtree, the node itself, and the right child's subtree. -/
theorem sub_split {n l : Nat} (h : level n = l + 1) (k : Nat) :
    inSub (l + 1) n k = (inSub l (n - 2 ^ l) k || (k == n) || inSub l (n + 2 ^ l) k) := by
  obtain ⟨q, hq⟩ := level_decomp h
  have hmul : q * 2 ^ (l + 1 + 1) = 4 * (q * 2 ^ l) := by ring
  have hp1 : (2 : Nat) ^ (l + 1) = 2 * 2 ^ l := by ring
  have hpos : 0 < 2 ^ l := Nat.pos_pow_of_pos _ (by omega)
  apply Bool.eq_iff_iff.mpr
  simp only [inSub, Bool.or_eq_true, Bool.and_eq_true, decide_eq_true_eq, beq_iff_eq]
  omega

theorem inSub_left_bound {n l k : Nat} (h : level n = l + 1)
    (hk : inSub l (n - 2 ^ l) k = true) : k < n := by
  have hge := level_ge h
  rw [inSub_iff] at hk
  have hp1 : (2 : Nat) ^ (l + 1) = 2 * 2 ^ l := by ring
  have hpos : 0 < 2 ^ l := Nat.pos_pow_of_pos _ (by omega)
  omega

theorem inSub_right_bound {n l k : Nat} (hk : inSub l (n + 2 ^ l) k = true) : n < k := by
  rw [inSub_iff] at hk
  omega

/-- The level-`l` ancestor of any rank in a level-`l` subtree is unique:
it is determined by the block quotient of the member rank. -/
theorem anc_eq {n l k : Nat} (h : level n = l) (hk : inSub l n k = true) :
    n + 1 = k / 2 ^ (l + 1) * 2 ^ (l + 1) + 2 ^ l := by
  have hd := level_div_decomp h
  obtain ⟨q, hqdef⟩ : ∃ q, (n + 1) / 2 ^ (l + 1) = q := ⟨_, rfl⟩
  rw [hqdef] at hd
  rw [inSub_iff] at hk
  have hp1 : (2 : Nat) ^ (l + 1) = 2 * 2 ^ l := by ring
  have hpos : 0 < 2 ^ l := Nat.pos_pow_of_pos _ (by omega)
  have hc : 2 ^ (l + 1) * q = q * 2 ^ (l + 1) := by ring
  have hk1 : q * 2 ^ (l + 1) ≤ k := by omega
  have hk2 : k < q * 2 ^ (l + 1) + 2 ^ (l + 1) := by omega
  have hkd : k = (k - q * 2 ^ (l + 1)) + 2 ^ (l + 1) * q := by omega
  have hdiv : k / 2 ^ (l + 1) = q := by
    conv_lhs => rw [hkd]
    rw [Nat.add_mul_div_left _ _ (show 0 < 2 ^ (l + 1) by omega),
      Nat.div_eq_of_lt (by omega)]
    omega
  rw [hdiv]
  omega

/-! ## The right border -/

theorem rml_even (N : Nat) : rml N % 2 = 0 := by unfold rml; omega

theorem rml_lt {N : Nat} (h : N ≠ 0) : rml N < N := by unfold rml; omega

theorem rml_ge (N : Nat) : N ≤ rml N + 2 := by unfold rml; omega

theorem borderF_succ (N l : Nat) :
    borderF N l + 1 = rml N / 2 ^ (l + 1) * 2 ^ (l + 1) + 2 ^ l := by
  unfold borderF
  have hpos : 0 < 2 ^ l := Nat.pos_pow_of_pos _ (by omega)
  omega

theorem borderF_level (N l : Nat) : level (borderF N l) = l :=
  level_of_decomp (q := rml N / 2 ^ (l + 1)) (borderF_succ N l)

theorem borderF_zero (N : Nat) : borderF N 0 = rml N := by
  have h := rml_even N
  have hd := Nat.div_add_mod (rml N) 2
  have hb := borderF_succ N 0
  have hp : (2 : Nat) ^ (0 + 1) = 2 := by norm_num
  have hp0 : (2 : Nat) ^ 0 = 1 := by norm_num
  rw [hp, hp0] at hb
  have hc : rml N / 2 * 2 = 2 * (rml N / 2) := by ring
  omega

/-- The rightmost real leaf lies in the subtree of every border node. -/
theorem rml_in_border (N l : Nat) : inSub l (borderF N l) (rml N) = true := by
  rw [inSub_iff]
  have hb := borderF_succ N l
  have hd := Nat.div_add_mod (rml N) (2 ^ (l + 1))
  have heven := rml_even N
  have hml := Nat.mod_lt (rml N) (show 0 < 2 ^ (l + 1) from Nat.pos_pow_of_pos _ (by omega))
  have hp1 : (2 : Nat) ^ (l + 1) = 2 * 2 ^ l := by ring
  have hpos : 0 < 2 ^ l := Nat.pos_pow_of_pos _ (by omega)
  have hc : rml N / 2 ^ (l + 1) * 2 ^ (l + 1) = 2 ^ (l + 1) * (rml N / 2 ^ (l + 1)) := by ring
  have hc2 : 2 ^ (l + 1) * (rml N / 2 ^ (l + 1)) = 2 * (2 ^ l * (rml N / 2 ^ (l + 1))) := by
    ring
  omega

theorem parent_borderF (N l : Nat) : parent (borderF N l) = borderF N (l + 1) := by
  have hps := parent_succ (borderF_level N l)
  have hpos1 : 0 < 2 ^ (l + 1) := Nat.pos_pow_of_pos _ (by omega)
  have h1 : borderF N l + 1 = 2 ^ l + 2 ^ (l + 1) * (rml N / 2 ^ (l + 1)) := by
    have hb := borderF_succ N l
    have hc : rml N / 2 ^ (l + 1) * 2 ^ (l + 1) = 2 ^ (l + 1) * (rml N / 2 ^ (l + 1)) := by
      ring
    omega
  have hq : (borderF N l + 1) / 2 ^ (l + 1) = rml N / 2 ^ (l + 1) := by
    rw [h1, Nat.add_mul_div_left _ _ hpos1, Nat.div_eq_of_lt]
    · omega
    · have hp1 : (2 : Nat) ^ (l + 1) = 2 * 2 ^ l := by ring
      have hpos : 0 < 2 ^ l := Nat.pos_pow_of_pos _ (by omega)
      omega
  rw [hq] at hps
  have hq2 : rml N / 2 ^ (l + 1) / 2 = rml N / 2 ^ (l + 2) := by
    rw [Nat.div_div_eq_div_mul]
    have he2 : (2 : Nat) ^ (l + 1) * 2 = 2 ^ (l + 2) := by ring
    rw [he2]
  rw [hq2] at hps
  have hb2 := borderF_succ N (l + 1)
  have he : (2 : Nat) ^ (l + 1 + 1) = 2 ^ (l + 2) := by ring
  rw [he] at hb2
  omega

theorem chainFuel_getD (N : Nat) :
    ∀ fuel l0, l0 + fuel = root_level N →
      ∀ j, j ≤ fuel →
        (chainFuel (root N) fuel (borderF N l0)).getD j 0 = borderF N (l0 + j) := by
  intro fuel
  induction fuel with
  | zero =>
    intro l0 h j hj
    have hj0 : j = 0 := by omega
    subst hj0
    simp [chainFuel]
  | succ fuel ih =>
    intro l0 h j hj
    have hne : borderF N l0 ≠ root N := by
      intro he
      have h1 := borderF_level N l0
      rw [he, level_root] at h1
      omega
    simp only [chainFuel, if_neg hne]
    match j with
    | 0 => simp
    | j + 1 =>
      rw [List.getD_cons_succ, parent_borderF]
      have hres := ih (l0 + 1) (by omega) j (by omega)
      rw [hres]
      congr 1
      omega

theorem right_border_getD {N l : Nat} (hl : l ≤ root_level N) :
    (right_border N).getD l 0 = borderF N l := by
  unfold right_border
  rw [← borderF_zero N]
  have hres := chainFuel_getD N (root_level N) 0 (by omega) l hl
  simpa using hres

/-- A real node of positive level whose right child is imaginary is the
border node of its level. -/
theorem border_unique {N n l : Nat} (hN : N ≠ 0) (hlev : level n = l + 1)
    (hn : n < N) (him : N ≤ n + 2 ^ l) : n = borderF N (l + 1) := by
  have hrml_sub : inSub (l + 1) n (rml N) = true := by
    rw [inSub_iff]
    have h1 := level_ge hlev
    have hrl := rml_lt hN
    have hrg := rml_ge N
    have hp : (2 : Nat) ^ (l + 1) = 2 * 2 ^ l := by ring
    have hpos : 0 < 2 ^ l := Nat.pos_pow_of_pos _ (by omega)
    omega
  have ha := anc_eq hlev hrml_sub
  have hb := borderF_succ N (l + 1)
  omega

/-! ## Level ranks -/

theorem mem_levelRanks {N lv k : Nat} :
    k ∈ levelRanks N lv ↔ level k = lv ∧ k < N := by
  unfold levelRanks
  have hpos : 0 < 2 ^ lv := Nat.pos_pow_of_pos _ (by omega)
  have hpos1 : 0 < 2 ^ (lv + 1) := Nat.pos_pow_of_pos _ (by omega)
  have hp1 : (2 : Nat) ^ (lv + 1) = 2 * 2 ^ lv := by ring
  rw [List.mem_range']
  constructor
  · rintro ⟨i, hi, rfl⟩
    constructor
    · apply level_of_decomp (q := i)
      have hc : 2 ^ (lv + 1) * i = i * 2 ^ (lv + 1) := by ring
      omega
    · have hlen := Nat.div_mul_le_self (N + 2 ^ lv) (2 ^ (lv + 1))
      have hmono : (i + 1) * 2 ^ (lv + 1) ≤ (N + 2 ^ lv) / 2 ^ (lv + 1) * 2 ^ (lv + 1) :=
        Nat.mul_le_mul_right _ (by omega)
      have hc : (i + 1) * 2 ^ (lv + 1) = i * 2 ^ (lv + 1) + 2 ^ (lv + 1) := by ring
      have hc2 : 2 ^ (lv + 1) * i = i * 2 ^ (lv + 1) := by ring
      omega
  · rintro ⟨hlev, hkN⟩
    obtain ⟨q, hq⟩ := level_decomp hlev
    refine ⟨q, ?_, ?_⟩
    · have hle : (q + 1) * 2 ^ (lv + 1) ≤ N + 2 ^ lv := by
        have hc : (q + 1) * 2 ^ (lv + 1) = q * 2 ^ (lv + 1) + 2 ^ (lv + 1) := by ring
        omega
      have := (Nat.le_div_iff_mul_le hpos1).mpr hle
      omega
    · have hc : 2 ^ (lv + 1) * q = q * 2 ^ (lv + 1) := by ring
      omega

/-! ## Sorting lemmas -/

instance node_le_total {Item : Type} (gb ge : Item → Nat) :
    IsTotal Item (node_le gb ge) := by
  constructor
  intro a b
  unfold node_le node_lt
  split_ifs <;> omega

instance node_le_trans {Item : Type} (gb ge : Item → Nat) :
    IsTrans Item (node_le gb ge) := by
  constructor
  intro a b c hab hbc
  unfold node_le node_lt at *
  split_ifs at * <;> omega

theorem sortedItems_perm {Item : Type} (gb ge : Item → Nat) (items : List Item) :
    (sortedItems gb ge items).Perm items :=
  List.perm_insertionSort _ items

theorem sortedItems_length {Item : Type} (gb ge : Item → Nat) (items : List Item) :
    (sortedItems gb ge items).length = items.length :=
  (sortedItems_perm gb ge items).length_eq

theorem sortedItems_pairwise {Item : Type} (gb ge : Item → Nat) (items : List Item) :
    List.Pairwise (node_le gb ge) (sortedItems gb ge items) :=
  List.sorted_insertionSort _ items

theorem begAt_eq {Item : Type} (gb : Item → Nat) (s : List Item) {k : Nat}
    (h : k < s.length) : begAt gb s k = gb s[k] := by
  unfold begAt
  rw [List.getElem?_eq_getElem h]
  rfl

theorem endAt_eq {Item : Type} (ge : Item → Nat) (s : List Item) {k : Nat}
    (h : k < s.length) : endAt ge s k = ge s[k] := by
  unfold endAt
  rw [List.getElem?_eq_getElem h]
  rfl

/-- The sorted array has nondecreasing begin positions. -/
theorem begAt_mono {Item : Type} (gb ge : Item → Nat) (items : List Item) {i j : Nat}
    (hij : i ≤ j) (hj : j < (sortedItems gb ge items).length) :
    begAt gb (sortedItems gb ge items) i ≤ begAt gb (sortedItems gb ge items) j := by
  rcases Nat.eq_or_lt_of_le hij with rfl | hlt
  · exact Nat.le_refl _
  · have hp := (List.pairwise_iff_getElem.mp (sortedItems_pairwise gb ge items))
      i j (by omega) hj hlt
    unfold node_le node_lt at hp
    rw [begAt_eq gb _ (by omega : i < (sortedItems gb ge items).length),
      begAt_eq gb _ hj]
    split_ifs at hp <;> omega

/-- Ties on begin are ordered by end in the sorted array. -/
theorem endAt_tie_mono {Item : Type} (gb ge : Item → Nat) (items : List Item) {i j : Nat}
    (hij : i < j) (hj : j < (sortedItems gb ge items).length)
    (htie : begAt gb (sortedItems gb ge items) i = begAt gb (sortedItems gb ge items) j) :
    endAt ge (sortedItems gb ge items) i ≤ endAt ge (sortedItems gb ge items) j := by
  have hp := (List.pairwise_iff_getElem.mp (sortedItems_pairwise gb ge items))
    i j (by omega) hj hij
  unfold node_le node_lt at hp
  rw [begAt_eq gb _ (by omega : i < (sortedItems gb ge items).length), begAt_eq gb _ hj] at htie
  rw [endAt_eq ge _ (by omega : i < (sortedItems gb ge items).length), endAt_eq ge _ hj]
  split_ifs at hp <;> omega

/-! ## Fold-max helpers -/

theorem le_foldr_max (f : Nat → Nat) :
    ∀ (l : List Nat) (k : Nat), k ∈ l → f k ≤ l.foldr (fun k a => max (f k) a) 0 := by
  intro l
  induction l with
  | nil => intro k hk; cases hk
  | cons a l ih =>
    intro k hk
    rcases List.mem_cons.mp hk with rfl | hk
    · simp only [List.foldr_cons]
      omega
    · have := ih k hk
      simp only [List.foldr_cons]
      omega

theorem foldr_max_le (f : Nat → Nat) (b : Nat) :
    ∀ (l : List Nat), (∀ k ∈ l, f k ≤ b) → l.foldr (fun k a => max (f k) a) 0 ≤ b := by
  intro l
  induction l with
  | nil => intro _; simp
  | cons a l ih =>
    intro h
    have h1 := h a (List.mem_cons_self a l)
    have h2 := ih (fun k hk => h k (List.mem_cons_of_mem a hk))
    simp only [List.foldr_cons]
    omega

theorem foldr_max_or (f : Nat → Nat) (p q : Nat → Bool) :
    ∀ (l : List Nat),
      (l.filter (fun k => p k || q k)).foldr (fun k a => max (f k) a) 0 =
        max ((l.filter p).foldr (fun k a => max (f k) a) 0)
          ((l.filter q).foldr (fun k a => max (f k) a) 0) := by
  intro l
  induction l with
  | nil => simp
  | cons a l ih =>
    cases hp : p a <;> cases hq : q a <;>
      simp [List.filter_cons, hp, hq, ih] <;> omega

theorem le_maxEndOver {Item : Type} (ge : Item → Nat) (s : List Item) (p : Nat → Bool)
    {k : Nat} (hk : k < s.length) (hp : p k = true) :
    endAt ge s k ≤ maxEndOver ge s p := by
  apply le_foldr_max
  rw [List.mem_filter, List.mem_range]
  exact ⟨hk, hp⟩

theorem maxEndOver_le {Item : Type} (ge : Item → Nat) (s : List Item) (p : Nat → Bool)
    {b : Nat} (h : ∀ k, k < s.length → p k = true → endAt ge s k ≤ b) :
    maxEndOver ge s p ≤ b := by
  apply foldr_max_le
  intro k hk
  rw [List.mem_filter, List.mem_range] at hk
  exact h k hk.1 hk.2

theorem maxEndOver_congr {Item : Type} (ge : Item → Nat) (s : List Item) {p q : Nat → Bool}
    (h : ∀ k, k < s.length → p k = q k) : maxEndOver ge s p = maxEndOver ge s q := by
  unfold maxEndOver
  rw [List.filter_congr (fun k hk => h k (List.mem_range.mp hk))]

theorem maxEndOver_empty {Item : Type} (ge : Item → Nat) (s : List Item) {p : Nat → Bool}
    (h : ∀ k, k < s.length → p k = false) : maxEndOver ge s p = 0 := by
  unfold maxEndOver
  have hnil : (List.range s.length).filter p = [] := by
    rw [List.filter_eq_nil_iff]
    intro k hk
    rw [List.mem_range] at hk
    simp [h k hk]
  rw [hnil]
  rfl

theorem maxEndOver_or {Item : Type} (ge : Item → Nat) (s : List Item) {r p q : Nat → Bool}
    (h : ∀ k, k < s.length → r k = (p k || q k)) :
    maxEndOver ge s r = max (maxEndOver ge s p) (maxEndOver ge s q) := by
  rw [maxEndOver_congr ge s h]
  exact foldr_max_or _ p q _

theorem filter_beq_range (n : Nat) :
    ∀ m : Nat, (List.range m).filter (fun k => k == n) = if n < m then [n] else [] := by
  intro m
  induction m with
  | zero => simp
  | succ m ih =>
    rw [List.range_succ, List.filter_append, ih]
    by_cases hm : m = n
    · subst hm
      simp [Nat.lt_irrefl]
    · by_cases hn : n < m
      · have : n < m + 1 := by omega
        simp [hn, this, hm]
      · have : ¬ n < m + 1 := by omega
        simp [hn, this, hm]

theorem maxEndOver_single {Item : Type} (ge : Item → Nat) (s : List Item) {p : Nat → Bool}
    {n : Nat} (hn : n < s.length) (h : ∀ k, k < s.length → p k = (k == n)) :
    maxEndOver ge s p = endAt ge s n := by
  rw [maxEndOver_congr ge s h]
  unfold maxEndOver
  rw [filter_beq_range, if_pos hn]
  simp only [List.foldr_cons, List.foldr_nil]
  omega

theorem map_getD_endAt {Item : Type} (ge : Item → Nat) (s : List Item) (k : Nat) :
    (s.map ge).getD k 0 = endAt ge s k := by
  rw [List.getD_eq_getElem?_getD, List.getElem?_map]
  rfl

theorem getD_map_range {α : Type} [Inhabited α] (f : Nat → α) (d : α) {n N : Nat}
    (h : n < N) : ((List.range N).map f).getD n d = f n := by
  rw [List.getD_eq_getElem?_getD, List.getElem?_map, List.getElem?_range h]
  rfl

theorem getD_set_self {l : List Nat} {k : Nat} (h : k < l.length) (v : Nat) :
    (l.set k v).getD k 0 = v := by
  rw [List.getD_eq_getElem?_getD, List.getElem?_set_self h]
  rfl

theorem getD_set_ne {l : List Nat} {k n : Nat} (h : n ≠ k) (v : Nat) :
    (l.set n v).getD k 0 = l.getD k 0 := by
  rw [List.getD_eq_getElem?_getD, List.getElem?_set_ne h, ← List.getD_eq_getElem?_getD]

/-! ## Bottom-up augmentation: supporting lemmas -/

theorem maxEndOver_or3 {Item : Type} (ge : Item → Nat) (s : List Item) {r p q t : Nat → Bool}
    (h : ∀ k, k < s.length → r k = (p k || (q k || t k))) :
    maxEndOver ge s r =
      max (maxEndOver ge s p) (max (maxEndOver ge s q) (maxEndOver ge s t)) := by
  rw [maxEndOver_congr ge s h]
  unfold maxEndOver
  rw [foldr_max_or _ p _, foldr_max_or _ q t]

/-- A leaf's subtree max is its own end. -/
theorem subtree_max_leaf {Item : Type} (ge : Item → Nat) (s : List Item) {k : Nat}
    (hlev : level k = 0) (hk : k < s.length) : subtree_max_end ge s k = endAt ge s k := by
  unfold subtree_max_end
  rw [hlev]
  apply maxEndOver_single ge s hk
  intro j _
  apply Bool.eq_iff_iff.mpr
  rw [inSub_iff]
  have hp : (2 : Nat) ^ 0 = 1 := by norm_num
  rw [hp]
  constructor
  · intro hj; simp only [beq_iff_eq]; omega
  · intro hj; simp only [beq_iff_eq] at hj; omega

/-- Splitting the subtree max of an internal node. -/
theorem subtree_max_split {Item : Type} (ge : Item → Nat) (s : List Item) {n l : Nat}
    (hlev : level n = l + 1) (hn : n < s.length) :
    subtree_max_end ge s n =
      max (endAt ge s n)
        (max (maxEndOver ge s (fun k => inSub l (n - 2 ^ l) k))
          (maxEndOver ge s (fun k => inSub l (n + 2 ^ l) k))) := by
  unfold subtree_max_end
  rw [hlev]
  have h3 := maxEndOver_or3 ge s (r := fun k => inSub (l + 1) n k)
    (p := fun k => inSub l (n - 2 ^ l) k) (q := fun k => k == n)
    (t := fun k => inSub l (n + 2 ^ l) k) (fun k _ => by
      show inSub (l + 1) n k = (inSub l (n - 2 ^ l) k || ((k == n) || inSub l (n + 2 ^ l) k))
      rw [sub_split hlev k]
      cases inSub l (n - 2 ^ l) k <;> cases (k == n) <;>
        cases inSub l (n + 2 ^ l) k <;> rfl)
  rw [h3, maxEndOver_single ge s hn (fun k _ => rfl)]
  omega

/-- Levels are preserved by stepping one block to the right. -/
theorem level_add_step {r l : Nat} (h : level r = l) : level (r + 2 ^ (l + 1)) = l := by
  rw [level_succ_mod] at h ⊢
  have he : r + 2 ^ (l + 1) + 1 = r + 1 + 2 ^ (l + 1) := by omega
  rw [he, Nat.add_mod_right]
  exact h

/-- Two distinct ranks of the same level are at least one block apart. -/
theorem level_eq_spacing {a b l : Nat} (ha : level a = l) (hb : level b = l)
    (hab : a < b) : a + 2 ^ (l + 1) ≤ b := by
  obtain ⟨qa, hqa⟩ := level_decomp ha
  obtain ⟨qb, hqb⟩ := level_decomp hb
  have hq : qa < qb := by
    by_contra hc
    have : qb * 2 ^ (l + 1) ≤ qa * 2 ^ (l + 1) := Nat.mul_le_mul_right _ (by omega)
    omega
  have : (qa + 1) * 2 ^ (l + 1) ≤ qb * 2 ^ (l + 1) := Nat.mul_le_mul_right _ (by omega)
  have hc : (qa + 1) * 2 ^ (l + 1) = qa * 2 ^ (l + 1) + 2 ^ (l + 1) := by ring
  omega

/-- The border node at level `l` is a child of the border node at level
`l + 1`. -/
theorem borderF_child (N l : Nat) :
    borderF N l = borderF N (l + 1) - 2 ^ l ∨ borderF N l = borderF N (l + 1) + 2 ^ l := by
  have hb := borderF_succ N l
  have hb2 := borderF_succ N (l + 1)
  have he : (2 : Nat) ^ (l + 1 + 1) = 2 ^ (l + 2) := by ring
  rw [he] at hb2
  have hq2 : rml N / 2 ^ (l + 1) / 2 = rml N / 2 ^ (l + 2) := by
    rw [Nat.div_div_eq_div_mul]
    have he2 : (2 : Nat) ^ (l + 1) * 2 = 2 ^ (l + 2) := by ring
    rw [he2]
  obtain ⟨Q, hQ⟩ : ∃ Q, rml N / 2 ^ (l + 1) = Q := ⟨_, rfl⟩
  rw [hQ] at hb hq2
  rw [← hq2] at hb2
  have hqm := Nat.div_add_mod Q 2
  have hp1 : (2 : Nat) ^ (l + 1) = 2 * 2 ^ l := by ring
  have hpos : 0 < 2 ^ l := Nat.pos_pow_of_pos _ (by omega)
  rcases Nat.mod_two_eq_zero_or_one Q with hpar | hpar
  · left
    have hcc : Q * 2 ^ (l + 1) = Q / 2 * 2 ^ (l + 2) + Q % 2 * 2 ^ (l + 1) := by
      conv_lhs => rw [← hqm]
      ring
    rw [hpar] at hcc
    omega
  · right
    have hcc : Q * 2 ^ (l + 1) = Q / 2 * 2 ^ (l + 2) + Q % 2 * 2 ^ (l + 1) := by
      conv_lhs => rw [← hqm]
      ring
    rw [hpar] at hcc
    omega

/-- Unfolding one step of the bottom-up indexing at a node of level
`l + 1`. -/
theorem imeStep_eq {Item : Type} (ge : Item → Nat) (s : List Item) (border_lv : Nat)
    (ime : List Nat) (bime : Nat) {n l : Nat} (hlev : level n = l + 1) :
    imeStep ge s border_lv (ime, bime) n =
      (ime.set n (if n + 2 ^ l < s.length
          then max (max (endAt ge s n) (ime.getD (n - 2 ^ l) 0)) (ime.getD (n + 2 ^ l) 0)
          else max (max (endAt ge s n) (ime.getD (n - 2 ^ l) 0)) bime),
        if n = border_lv
          then (if n + 2 ^ l < s.length
            then max (max (endAt ge s n) (ime.getD (n - 2 ^ l) 0)) (ime.getD (n + 2 ^ l) 0)
            else max (max (endAt ge s n) (ime.getD (n - 2 ^ l) 0)) bime)
          else bime) := by
  unfold imeStep
  rw [left_eq hlev, right_eq hlev]
  by_cases hc : n + 2 ^ l < s.length <;> simp [hc, Nat.max_assoc]

/-- If the border node at level `l` is the right child of the one at level
`l + 1`, the latter is real. -/
theorem borderF_right_lt {N l : Nat} (hN : N ≠ 0)
    (h : borderF N l = borderF N (l + 1) + 2 ^ l) : borderF N (l + 1) < N := by
  have hrml := rml_in_border N l
  rw [h] at hrml
  have := inSub_right_bound hrml
  have := rml_lt hN
  omega

/-- Collapsing the border subtree across an imaginary border node: the real
members of the subtree of `borderF (l+1)` are exactly those of the subtree
of `borderF l`. -/
theorem border_collapse_pointwise {N l : Nat} (hN : N ≠ 0)
    (him : N ≤ borderF N (l + 1)) (k : Nat) (hk : k < N) :
    inSub (l + 1) (borderF N (l + 1)) k = inSub l (borderF N l) k := by
  have hchild := borderF_child N l
  rcases hchild with hleft | hright
  · rw [sub_split (borderF_level N (l + 1)) k, hleft]
    have hB : (k == borderF N (l + 1)) = false := by
      simp only [beq_eq_false_iff_ne]
      omega
    have hC : inSub l (borderF N (l + 1) + 2 ^ l) k = false := by
      rcases hcc : inSub l (borderF N (l + 1) + 2 ^ l) k with _ | _
      · rfl
      · have := inSub_right_bound hcc
        omega
    rw [hB, hC]
    cases inSub l (borderF N (l + 1) - 2 ^ l) k <;> rfl
  · have := borderF_right_lt hN hright
    omega

/-- Invariant of the inner loop of the bottom-up indexing: folding
`imeStep` over the remaining real ranks of level `l + 1` completes the
augment for that level and leaves the border observation equal to the max
end over the real part of the current border subtree. -/
theorem ime_inner {Item : Type} (ge : Item → Nat) (s : List Item) (hN : s.length ≠ 0)
    (l : Nat) :
    ∀ len start ime bime,
      level start = l + 1 →
      s.length ≤ start + len * 2 ^ (l + 2) →
      (len = 0 ∨ start + (len - 1) * 2 ^ (l + 2) < s.length) →
      ime.length = s.length →
      (∀ k, k < s.length → level k < l + 1 → ime.getD k 0 = subtree_max_end ge s k) →
      (∀ k, k < s.length → level k = l + 1 → k < start →
          ime.getD k 0 = subtree_max_end ge s k) →
      (∀ k, k < s.length → level k = l + 1 → start ≤ k → ime.getD k 0 = endAt ge s k) →
      (∀ k, k < s.length → l + 1 < level k → ime.getD k 0 = endAt ge s k) →
      bime = (if borderF s.length (l + 1) < s.length ∧ borderF s.length (l + 1) < start
          then maxEndOver ge s (fun k => inSub (l + 1) (borderF s.length (l + 1)) k)
          else maxEndOver ge s (fun k => inSub l (borderF s.length l) k)) →
      ∀ res, res = (List.range' start len (2 ^ (l + 2))).foldl
          (imeStep ge s (borderF s.length (l + 1))) (ime, bime) →
        res.1.length = s.length ∧
        (∀ k, k < s.length → level k ≤ l + 1 → res.1.getD k 0 = subtree_max_end ge s k) ∧
        (∀ k, k < s.length → l + 1 < level k → res.1.getD k 0 = endAt ge s k) ∧
        res.2 = maxEndOver ge s (fun k => inSub (l + 1) (borderF s.length (l + 1)) k) := by
  intro len
  induction len with
  | zero =>
    intro start ime bime hstart hcov hin hlen H1 H2 H3 H4 H5 res hres
    rw [show List.range' start 0 (2 ^ (l + 2)) = [] from rfl, List.foldl_nil] at hres
    subst hres
    refine ⟨hlen, ?_, H4, ?_⟩
    · intro k hk hlev
      rcases Nat.lt_or_ge (level k) (l + 1) with hlt | hge
      · exact H1 k hk hlt
      · exact H2 k hk (by omega) (by omega)
    · show bime = _
      rw [H5]
      by_cases hb : borderF s.length (l + 1) < s.length
      · rw [if_pos ⟨hb, by omega⟩]
      · rw [if_neg (by tauto)]
        exact (maxEndOver_congr ge s (border_collapse_pointwise hN (by omega))).symm
  | succ len ih =>
    intro start ime bime hstart hcov hin hlen H1 H2 H3 H4 H5 res hres
    have hcov' : s.length ≤ start + (len + 1) * 2 ^ (l + 2) := hcov
    have hstep_link : (len + 1) * 2 ^ (l + 2) = len * 2 ^ (l + 2) + 2 ^ (l + 2) := by ring
    have hnN : start < s.length := by
      rcases hin with h0 | h1
      · omega
      · have : len + 1 - 1 = len := by omega
        rw [this] at h1
        omega
    have hposl : 0 < 2 ^ l := Nat.pos_pow_of_pos _ (by omega)
    have hpos2 : 0 < 2 ^ (l + 2) := Nat.pos_pow_of_pos _ (by omega)
    have hgeS := level_ge hstart
    have hp1 : (2 : Nat) ^ (l + 1) = 2 * 2 ^ l := by ring
    rw [List.range'_succ, List.foldl_cons, imeStep_eq ge s _ ime bime hstart] at hres
    have hlev_left : level (start - 2 ^ l) = l := level_left_child hstart
    have hlt_left : start - 2 ^ l < s.length := by omega
    have hime_left : ime.getD (start - 2 ^ l) 0 = subtree_max_end ge s (start - 2 ^ l) :=
      H1 _ hlt_left (by omega)
    have hsub_left : subtree_max_end ge s (start - 2 ^ l) =
        maxEndOver ge s (fun k => inSub l (start - 2 ^ l) k) := by
      unfold subtree_max_end
      rw [hlev_left]
    have hv : (if start + 2 ^ l < s.length
        then max (max (endAt ge s start) (ime.getD (start - 2 ^ l) 0))
          (ime.getD (start + 2 ^ l) 0)
        else max (max (endAt ge s start) (ime.getD (start - 2 ^ l) 0)) bime)
        = subtree_max_end ge s start := by
      by_cases hreal : start + 2 ^ l < s.length
      · rw [if_pos hreal]
        have hlev_right : level (start + 2 ^ l) = l := level_right_child hstart
        have hime_right : ime.getD (start + 2 ^ l) 0 = subtree_max_end ge s (start + 2 ^ l) :=
          H1 _ hreal (by omega)
        have hsub_right : subtree_max_end ge s (start + 2 ^ l) =
            maxEndOver ge s (fun k => inSub l (start + 2 ^ l) k) := by
          unfold subtree_max_end
          rw [hlev_right]
        rw [subtree_max_split ge s hstart hnN, hime_left, hime_right, hsub_left, hsub_right]
        omega
      · rw [if_neg hreal]
        have hb_eq : start = borderF s.length (l + 1) :=
          border_unique hN hstart hnN (by omega)
        have hb5 : bime = maxEndOver ge s (fun k => inSub l (borderF s.length l) k) := by
          rw [H5, if_neg]
          rintro ⟨hx1, hx2⟩
          omega
        rcases borderF_child s.length l with hleft | hright
        · have hrml := rml_in_border s.length l
          rw [hleft, ← hb_eq] at hrml
          have hlt2 := inSub_left_bound hstart hrml
          have hge2 := rml_ge s.length
          have hempty : maxEndOver ge s (fun k => inSub l (start + 2 ^ l) k) = 0 := by
            apply maxEndOver_empty
            intro k hk
            rcases hc : inSub l (start + 2 ^ l) k with _ | _
            · rfl
            · have := inSub_right_bound hc
              omega
          have hbl : borderF s.length l = start - 2 ^ l := by rw [hleft, ← hb_eq]
          rw [hbl] at hb5
          rw [subtree_max_split ge s hstart hnN, hempty, hb5, hime_left, hsub_left]
          omega
        · have hbl : borderF s.length l = start + 2 ^ l := by rw [hright, ← hb_eq]
          rw [hbl] at hb5
          rw [subtree_max_split ge s hstart hnN, hb5, hime_left, hsub_left]
          omega
    rw [hv] at hres
    have hstart' : level (start + 2 ^ (l + 2)) = l + 1 := by
      have hstep := level_add_step hstart
      have he : (2 : Nat) ^ (l + 1 + 1) = 2 ^ (l + 2) := by ring
      rwa [he] at hstep
    have hsubmax_start : subtree_max_end ge s start =
        maxEndOver ge s (fun k => inSub (l + 1) start k) := by
      unfold subtree_max_end
      rw [hstart]
    refine ih (start + 2 ^ (l + 2)) (ime.set start (subtree_max_end ge s start)) _
      hstart' ?_ ?_ ?_ ?_ ?_ ?_ ?_ ?_ res hres
    · omega
    · rcases len with _ | m
      · exact Or.inl rfl
      · right
        rcases hin with h0 | h1
        · omega
        · have he1 : m + 1 + 1 - 1 = m + 1 := by omega
          rw [he1] at h1
          have he2 : (m + 1) * 2 ^ (l + 2) = m * 2 ^ (l + 2) + 2 ^ (l + 2) := by ring
          have he3 : m + 1 - 1 = m := by omega
          rw [he3]
          omega
    · rw [List.length_set]
      exact hlen
    · intro k hk hlev
      have hne : start ≠ k := by
        intro he
        rw [← he] at hlev
        omega
      rw [getD_set_ne hne _]
      exact H1 k hk hlev
    · intro k hk hlev hks
      by_cases hkeq : k = start
      · subst hkeq
        rw [getD_set_self (by omega)]
      · have hknot : start < k ∨ k < start := by omega
        rcases hknot with hgt | hlt
        · exfalso
          have hsp := level_eq_spacing hstart hlev hgt
          have he : (2 : Nat) ^ (l + 1 + 1) = 2 ^ (l + 2) := by ring
          rw [he] at hsp
          omega
        · rw [getD_set_ne (by omega) _]
          exact H2 k hk hlev hlt
    · intro k hk hlev hks
      rw [getD_set_ne (by omega) _]
      exact H3 k hk hlev (by omega)
    · intro k hk hlev
      have hne : start ≠ k := by
        intro he
        rw [← he] at hlev
        omega
      rw [getD_set_ne hne _]
      exact H4 k hk hlev
    · by_cases heq : start = borderF s.length (l + 1)
      · rw [if_pos heq, if_pos ⟨by omega, by omega⟩, ← heq, hsubmax_start]
      · rw [if_neg heq, H5]
        by_cases hb1 : borderF s.length (l + 1) < s.length
        · by_cases hb2 : borderF s.length (l + 1) < start
          · rw [if_pos ⟨hb1, hb2⟩, if_pos ⟨hb1, by omega⟩]
          · have hgt : start < borderF s.length (l + 1) := by omega
            have hsp := level_eq_spacing hstart (borderF_level s.length (l + 1)) hgt
            have he : (2 : Nat) ^ (l + 1 + 1) = 2 ^ (l + 2) := by ring
            rw [he] at hsp
            rw [if_neg (by tauto), if_neg (by rintro ⟨hx1, hx2⟩; omega)]
        · rw [if_neg (by tauto), if_neg (by tauto)]

/-- Invariant of the outer (level) loop of the bottom-up indexing. -/
theorem ime_outer {Item : Type} (ge : Item → Nat) (s : List Item) (hN : s.length ≠ 0) :
    ∀ j, j ≤ root_level s.length →
      ∀ res, res = (List.range' 1 j).foldl
          (fun st lv => (levelRanks s.length lv).foldl
            (imeStep ge s ((right_border s.length).getD lv 0)) st)
          (s.map ge, (s.map ge).getD (rml s.length) 0) →
        res.1.length = s.length ∧
        (∀ k, k < s.length → level k ≤ j → res.1.getD k 0 = subtree_max_end ge s k) ∧
        (∀ k, k < s.length → j < level k → res.1.getD k 0 = endAt ge s k) ∧
        res.2 = maxEndOver ge s (fun k => inSub j (borderF s.length j) k) := by
  intro j
  induction j with
  | zero =>
    intro hj res hres
    rw [show List.range' 1 0 = [] from rfl, List.foldl_nil] at hres
    subst hres
    refine ⟨by simp, ?_, ?_, ?_⟩
    · intro k hk hlev
      show (s.map ge).getD k 0 = _
      rw [map_getD_endAt, subtree_max_leaf ge s (by omega) hk]
    · intro k hk _
      show (s.map ge).getD k 0 = _
      rw [map_getD_endAt]
    · show (s.map ge).getD (rml s.length) 0 = _
      rw [map_getD_endAt, borderF_zero]
      symm
      apply maxEndOver_single ge s (by have := rml_lt hN; omega)
      intro k _
      apply Bool.eq_iff_iff.mpr
      rw [inSub_iff]
      have hp : (2 : Nat) ^ 0 = 1 := by norm_num
      rw [hp]
      constructor
      · intro hc; simp only [beq_iff_eq]; omega
      · intro hc; simp only [beq_iff_eq] at hc; omega
  | succ j ih =>
    intro hj res hres
    rw [List.range'_concat, List.foldl_append] at hres
    obtain ⟨res0, hres0⟩ : ∃ res0, res0 = (List.range' 1 j).foldl
        (fun st lv => (levelRanks s.length lv).foldl
          (imeStep ge s ((right_border s.length).getD lv 0)) st)
        (s.map ge, (s.map ge).getD (rml s.length) 0) := ⟨_, rfl⟩
    obtain ⟨hlen0, hA0, hB0, hC0⟩ := ih (by omega) res0 hres0
    rw [← hres0] at hres
    have hlv : 1 + 1 * j = j + 1 := by omega
    rw [hlv] at hres
    simp only [List.foldl_cons, List.foldl_nil] at hres
    rw [right_border_getD (show j + 1 ≤ root_level s.length by omega)] at hres
    have hstart_lev : level (2 ^ (j + 1) - 1) = j + 1 := by
      apply level_of_decomp (q := 0)
      have hpos : 0 < 2 ^ (j + 1) := Nat.pos_pow_of_pos _ (by omega)
      omega
    have hp1 : (2 : Nat) ^ (j + 1) = 2 * 2 ^ j := by ring
    have hp2 : (2 : Nat) ^ (j + 2) = 2 * 2 ^ (j + 1) := by ring
    have hposj : 0 < 2 ^ j := Nat.pos_pow_of_pos _ (by omega)
    have hdm := Nat.div_add_mod (s.length + 2 ^ (j + 1)) (2 ^ (j + 2))
    have hml := Nat.mod_lt (s.length + 2 ^ (j + 1))
      (show 0 < 2 ^ (j + 2) by omega)
    have hlr : levelRanks s.length (j + 1) =
        List.range' (2 ^ (j + 1) - 1) ((s.length + 2 ^ (j + 1)) / 2 ^ (j + 2)) (2 ^ (j + 2)) := by
      unfold levelRanks
      have he : (2 : Nat) ^ (j + 1 + 1) = 2 ^ (j + 2) := by ring
      rw [he]
    rw [hlr] at hres
    have hcd : 2 ^ (j + 2) * ((s.length + 2 ^ (j + 1)) / 2 ^ (j + 2)) =
        (s.length + 2 ^ (j + 1)) / 2 ^ (j + 2) * 2 ^ (j + 2) := by ring
    have hinner := ime_inner ge s hN j ((s.length + 2 ^ (j + 1)) / 2 ^ (j + 2))
      (2 ^ (j + 1) - 1) res0.1 res0.2 hstart_lev
      (by omega)
      (by
        rcases hlen : (s.length + 2 ^ (j + 1)) / 2 ^ (j + 2) with _ | m
        · exact Or.inl rfl
        · right
          have hmul := Nat.div_mul_le_self (s.length + 2 ^ (j + 1)) (2 ^ (j + 2))
          rw [hlen] at hmul
          have he3 : m + 1 - 1 = m := by omega
          rw [he3]
          have hc : (m + 1) * 2 ^ (j + 2) = m * 2 ^ (j + 2) + 2 ^ (j + 2) := by ring
          omega)
      hlen0
      (fun k hk hlev => hA0 k hk (by omega))
      (fun k hk hlev hks => by
        exfalso
        have := level_ge hlev
        omega)
      (fun k hk hlev hks => hB0 k hk (by omega))
      (fun k hk hlev => hB0 k hk (by omega))
      (by
        rw [if_neg, hC0]
        rintro ⟨hx1, hx2⟩
        have := level_ge (borderF_level s.length (j + 1))
        omega)
      res hres
    exact hinner

/-- The `inside_max_end` array has the length of the node array. -/
theorem buildIME_len {Item : Type} (ge : Item → Nat) (s : List Item) :
    (buildIME ge s).length = s.length := by
  unfold buildIME
  by_cases h : s.length = 0
  · simp [h]
  · simp only [h, if_false]
    exact (ime_outer ge s h (root_level s.length) (Nat.le_refl _) _ rfl).1

/-- Correctness of the bottom-up `inside_max_end` computation: after
construction, every real node's stored augment equals the maximum end over
the real nodes of its subtree. -/
theorem buildIME_correct {Item : Type} (ge : Item → Nat) (s : List Item)
    (hN : s.length ≠ 0) {k : Nat} (hk : k < s.length) :
    (buildIME ge s).getD k 0 = subtree_max_end ge s k := by
  unfold buildIME
  simp only [hN, if_false]
  have houter := ime_outer ge s hN (root_level s.length) (Nat.le_refl _) _ rfl
  apply houter.2.1 k hk
  have h1 := N_le_full_size hN
  rw [full_size_eq hN] at h1
  exact level_le_of_lt (by omega)

/-- Every end in a subtree is bounded by the stored augment. -/
theorem buildIME_bound {Item : Type} (ge : Item → Nat) (s : List Item)
    {k j : Nat} (hk : k < s.length) (hj : j < s.length)
    (hsub : inSub (level k) k j = true) :
    endAt ge s j ≤ (buildIME ge s).getD k 0 := by
  rw [buildIME_correct ge s (by omega) hk]
  exact le_maxEndOver ge s _ hj hsub

/-! ## Scan correctness -/

theorem scan_none {Item : Type} (gb ge : Item → Nat) (s : List Item) (ime : List Nat)
    (q1 q2 : Nat) : ∀ fuel, scan gb ge s ime fuel none q1 q2 = (0, []) := by
  intro fuel
  cases fuel <;> rfl

theorem oracleScan_append {Item : Type} (gb ge : Item → Nat) (s : List Item)
    (q1 q2 lo a b : Nat) :
    oracleScan gb ge s q1 q2 lo (a + b) =
      oracleScan gb ge s q1 q2 lo a ++ oracleScan gb ge s q1 q2 (lo + a) b := by
  unfold oracleScan
  have h := List.range'_append lo a b 1
  rw [Nat.one_mul] at h
  rw [Nat.add_comm a b, ← h, List.filterMap_append]

theorem oracleScan_nil {Item : Type} (gb ge : Item → Nat) (s : List Item)
    {q1 q2 lo len : Nat}
    (h : ∀ k, lo ≤ k → k < lo + len → ∀ hk : k < s.length,
      overlapB gb ge q1 q2 s[k] = false) :
    oracleScan gb ge s q1 q2 lo len = [] := by
  unfold oracleScan
  rw [List.filterMap_eq_nil_iff]
  intro k hk
  rw [List.mem_range'_1] at hk
  by_cases hkN : k < s.length
  · rw [List.getElem?_eq_getElem hkN]
    simp [h k hk.1 hk.2 hkN]
  · rw [List.getElem?_eq_none (by omega)]

theorem oracleScan_one {Item : Type} (gb ge : Item → Nat) (s : List Item)
    (q1 q2 r : Nat) (hr : r < s.length) :
    oracleScan gb ge s q1 q2 r 1 =
      if overlapB gb ge q1 q2 s[r] then [s[r]] else [] := by
  unfold oracleScan
  rw [show List.range' r 1 = [r] from rfl]
  rw [show ([r] : List Nat) = [r] ++ [] from rfl, List.filterMap_append]
  rw [List.filterMap_cons]
  rw [List.getElem?_eq_getElem hr]
  by_cases hc : overlapB gb ge q1 q2 s[r] <;> simp [hc]

theorem oracleScan_one_imag {Item : Type} (gb ge : Item → Nat) (s : List Item)
    (q1 q2 r : Nat) (hr : s.length ≤ r) :
    oracleScan gb ge s q1 q2 r 1 = [] := by
  apply oracleScan_nil
  intro k hk1 hk2 hkN
  omega

/-- The subtree of a node is exactly the window of its rank interval. -/
theorem inSub_window {r l k : Nat} (hge : 2 ^ l ≤ r + 1) :
    inSub l r k = true ↔ r + 1 - 2 ^ l ≤ k ∧ k < r + 1 - 2 ^ l + (2 ^ (l + 1) - 1) := by
  rw [inSub_iff]
  have hp : (2 : Nat) ^ (l + 1) = 2 * 2 ^ l := by ring
  have hpos : 0 < 2 ^ l := Nat.pos_pow_of_pos _ (by omega)
  omega

/-- Correctness of the shared top-down scanner: on any subtree whose stored
augments dominate the subtree ends and whose node array is sorted by begin,
the returned buffer is exactly the overlapping items of the subtree's rank
window, in rank order. -/
theorem scan_eq {Item : Type} (gb ge : Item → Nat) (s : List Item) (ime : List Nat)
    (q1 q2 : Nat)
    (Hime : ∀ k j, k < s.length → j < s.length → inSub (level k) k j = true →
      endAt ge s j ≤ ime.getD k 0)
    (Hsort : ∀ i j, i ≤ j → j < s.length → begAt gb s i ≤ begAt gb s j) :
    ∀ l fuel r, level r = l → l < fuel →
      (scan gb ge s ime fuel (some r) q1 q2).2 =
        oracleScan gb ge s q1 q2 (r + 1 - 2 ^ l) (2 ^ (l + 1) - 1) := by
  intro l
  induction l with
  | zero =>
    intro fuel r hlev hfuel
    match fuel, hfuel with
    | f + 1, _ =>
      have hw1 : r + 1 - 2 ^ 0 = r := by norm_num
      have hw2 : 2 ^ (0 + 1) - 1 = 1 := by norm_num
      rw [hw1, hw2]
      by_cases hr : r < s.length
      · rw [oracleScan_one gb ge s q1 q2 r hr]
        simp only [scan, dif_pos hr, left_leaf hlev, right_leaf hlev,
          scan_none gb ge s ime q1 q2 f]
        by_cases hq : q1 < ime.getD r 0
        · rw [if_pos hq]
          by_cases hbeg : gb s[r] < q2
          · rw [if_pos hbeg]
            by_cases hend : q1 < ge s[r]
            · rw [if_pos hend, if_pos (by
                unfold overlapB
                simp [hend, hbeg])]
              simp
            · rw [if_neg hend, if_neg (by
                unfold overlapB
                simp [hend])]
              simp
          · rw [if_neg hbeg, if_neg (by
              unfold overlapB
              simp [hbeg])]
        · rw [if_neg hq, if_neg (by
            unfold overlapB
            have hee := Hime r r hr hr (inSub_self _ r)
            rw [endAt_eq ge s hr] at hee
            simp only [Bool.and_eq_true, decide_eq_true_eq, not_and]
            omega)]
      · simp only [scan, dif_neg hr, left_leaf hlev, scan_none gb ge s ime q1 q2 f]
        rw [oracleScan_one_imag gb ge s q1 q2 r (by omega)]
  | succ l ih =>
    intro fuel r hlev hfuel
    match fuel, hfuel with
    | f + 1, _ =>
      have hge := level_ge hlev
      have hp1 : (2 : Nat) ^ (l + 1) = 2 * 2 ^ l := by ring
      have hp2 : (2 : Nat) ^ (l + 2) = 4 * 2 ^ l := by ring
      have hposl : 0 < 2 ^ l := Nat.pos_pow_of_pos _ (by omega)
      have hsplit : oracleScan gb ge s q1 q2 (r + 1 - 2 ^ (l + 1)) (2 ^ (l + 1 + 1) - 1) =
          oracleScan gb ge s q1 q2 (r + 1 - 2 ^ (l + 1)) (2 ^ (l + 1) - 1) ++
            (oracleScan gb ge s q1 q2 r 1 ++
              oracleScan gb ge s q1 q2 (r + 1) (2 ^ (l + 1) - 1)) := by
        have he1 : (2 : Nat) ^ (l + 1 + 1) - 1 =
            (2 ^ (l + 1) - 1) + (1 + (2 ^ (l + 1) - 1)) := by
          have he : (2 : Nat) ^ (l + 1 + 1) = 2 * 2 ^ (l + 1) := by ring
          omega
        rw [he1, oracleScan_append, oracleScan_append]
        have he2 : r + 1 - 2 ^ (l + 1) + (2 ^ (l + 1) - 1) = r := by omega
        have he3 : r + 1 = r + 1 := rfl
        rw [he2]
      have hwl : (r - 2 ^ l) + 1 - 2 ^ l = r + 1 - 2 ^ (l + 1) := by omega
      have hwr : (r + 2 ^ l) + 1 - 2 ^ l = r + 1 := by omega
      have hlevL : level (r - 2 ^ l) = l := level_left_child hlev
      have hlevR : level (r + 2 ^ l) = l := level_right_child hlev
      have hIHL := ih f (r - 2 ^ l) hlevL (by omega)
      have hIHR := ih f (r + 2 ^ l) hlevR (by omega)
      rw [hwl] at hIHL
      rw [hwr] at hIHR
      rw [hsplit]
      by_cases hr : r < s.length
      · simp only [scan, dif_pos hr, left_eq hlev, right_eq hlev]
        by_cases hq : q1 < ime.getD r 0
        · rw [if_pos hq]
          by_cases hbeg : gb s[r] < q2
          · rw [if_pos hbeg]
            simp only [hIHL, hIHR]
            rw [oracleScan_one gb ge s q1 q2 r hr]
            by_cases hend : q1 < ge s[r]
            · rw [if_pos hend, if_pos (by
                unfold overlapB
                simp [hend, hbeg])]
              simp
            · rw [if_neg hend, if_neg (by
                unfold overlapB
                simp [hend])]
              simp
          · rw [if_neg hbeg]
            simp only [hIHL]
            have hmid : oracleScan gb ge s q1 q2 r 1 = [] := by
              rw [oracleScan_one gb ge s q1 q2 r hr, if_neg (by
                unfold overlapB
                simp [hbeg])]
            have hright : oracleScan gb ge s q1 q2 (r + 1) (2 ^ (l + 1) - 1) = [] := by
              apply oracleScan_nil
              intro k hk1 hk2 hkN
              have hmono := Hsort r k (by omega) hkN
              rw [begAt_eq gb s hr, begAt_eq gb s hkN] at hmono
              unfold overlapB
              have hnot : ¬ gb s[k] < q2 := by omega
              simp [hnot]
            rw [hmid, hright]
            simp
        · rw [if_neg hq]
          have hall : ∀ k, r + 1 - 2 ^ (l + 1) ≤ k →
              k < r + 1 - 2 ^ (l + 1) + (2 ^ (l + 1 + 1) - 1) → ∀ hkN : k < s.length,
              overlapB gb ge q1 q2 s[k] = false := by
            intro k hk1 hk2 hkN
            have hin : inSub (l + 1) r k = true := by
              rw [inSub_window hge]
              have he : (2 : Nat) ^ (l + 1 + 1) = 2 * 2 ^ (l + 1) := by ring
              omega
            have hee := Hime r k hr hkN (by rw [hlev]; exact hin)
            rw [endAt_eq ge s hkN] at hee
            unfold overlapB
            have hnot : ¬ q1 < ge s[k] := by omega
            simp [hnot]
          have h1 : oracleScan gb ge s q1 q2 (r + 1 - 2 ^ (l + 1)) (2 ^ (l + 1) - 1) = [] := by
            apply oracleScan_nil
            intro k hk1 hk2 hkN
            apply hall k hk1 (by
              have he : (2 : Nat) ^ (l + 1 + 1) = 2 * 2 ^ (l + 1) := by ring
              omega) hkN
          have h2 : oracleScan gb ge s q1 q2 r 1 = [] := by
            apply oracleScan_nil
            intro k hk1 hk2 hkN
            apply hall k (by omega) (by
              have he : (2 : Nat) ^ (l + 1 + 1) = 2 * 2 ^ (l + 1) := by ring
              omega) hkN
          have h3 : oracleScan gb ge s q1 q2 (r + 1) (2 ^ (l + 1) - 1) = [] := by
            apply oracleScan_nil
            intro k hk1 hk2 hkN
            apply hall k (by omega) (by
              have he : (2 : Nat) ^ (l + 1 + 1) = 2 * 2 ^ (l + 1) := by ring
              omega) hkN
          rw [h1, h2, h3]
          simp
      · simp only [scan, dif_neg hr, left_eq hlev]
        simp only [hIHL]
        have hmid : oracleScan gb ge s q1 q2 r 1 = [] :=
          oracleScan_one_imag gb ge s q1 q2 r (by omega)
        have hright : oracleScan gb ge s q1 q2 (r + 1) (2 ^ (l + 1) - 1) = [] := by
          apply oracleScan_nil
          intro k hk1 hk2 hkN
          omega
        rw [hmid, hright]
        simp

/-- The oracle over the full real range is the filter of the node array. -/
theorem oracle_range_eq_filter {Item : Type} (gb ge : Item → Nat) (q1 q2 : Nat) :
    ∀ s : List Item, oracleScan gb ge s q1 q2 0 s.length =
      s.filter (overlapB gb ge q1 q2) := by
  intro s
  unfold oracleScan
  rw [← List.range_eq_range']
  induction s with
  | nil => rfl
  | cons a t ih =>
    have hcomp : ((fun k => match (a :: t)[k]? with
        | some it => if overlapB gb ge q1 q2 it then some it else none
        | none => none) ∘ Nat.succ) = (fun k => match t[k]? with
        | some it => if overlapB gb ge q1 q2 it then some it else none
        | none => none) := by
      funext k
      simp [Function.comp, List.getElem?_cons_succ]
    rw [show (a :: t).length = t.length + 1 from rfl, List.range_succ_eq_map,
      List.filterMap_cons, List.filterMap_map, hcomp, ih, List.filter_cons]
    simp only [List.getElem?_cons_zero]
    by_cases hp : overlapB gb ge q1 q2 a <;> simp [hp]

/-- The root scan on any sorted node array returns exactly its overlap
filter. -/
theorem scan_root_filter {Item : Type} (gb ge : Item → Nat) (s : List Item)
    (Hsort : ∀ i j, i ≤ j → j < s.length → begAt gb s i ≤ begAt gb s j)
    (q1 q2 : Nat) :
    (scan gb ge s (buildIME ge s) (root_level s.length + 1)
        (some (root s.length)) q1 q2).2 =
      s.filter (overlapB gb ge q1 q2) := by
  by_cases hN : s.length = 0
  · have hnil : s = [] := List.eq_nil_of_length_eq_zero hN
    rw [hnil]
    rfl
  · have hscan := scan_eq gb ge s (buildIME ge s) q1 q2
      (fun k j hk hj hsub => buildIME_bound ge s hk hj hsub) Hsort
      (root_level s.length) (root_level s.length + 1) (root s.length)
      (level_root s.length) (by omega)
    rw [hscan]
    have hpos : 0 < 2 ^ root_level s.length := Nat.pos_pow_of_pos _ (by omega)
    have hroot1 : root s.length + 1 - 2 ^ root_level s.length = 0 := by
      unfold root
      omega
    rw [hroot1]
    have hNle : s.length ≤ 2 ^ (root_level s.length + 1) - 1 := by
      have h1 := N_le_full_size hN
      rw [full_size_eq hN] at h1
      exact h1
    have hsplit : 2 ^ (root_level s.length + 1) - 1 =
        s.length + (2 ^ (root_level s.length + 1) - 1 - s.length) := by omega
    rw [hsplit, oracleScan_append]
    have htail : oracleScan gb ge s q1 q2 (0 + s.length)
        (2 ^ (root_level s.length + 1) - 1 - s.length) = [] := by
      apply oracleScan_nil
      intro k hk1 hk2 hkN
      omega
    rw [htail, List.append_nil]
    have hfull := oracle_range_eq_filter gb ge q1 q2 s
    exact hfull

/-- The result buffer of `iit::overlap` is exactly the sorted node array
filtered by the overlap predicate. -/
theorem overlap_eq_filter {Item : Type} (gb ge : Item → Nat) (items : List Item)
    (q1 q2 : Nat) :
    (iit_overlap gb ge items q1 q2).2 =
      (sortedItems gb ge items).filter (overlapB gb ge q1 q2) := by
  unfold iit_overlap
  exact scan_root_filter gb ge (sortedItems gb ge items)
    (fun i j hij hj => begAt_mono gb ge items hij hj) q1 q2

/-! ## Outside max end -/

theorem inSub_false_iff {l n k : Nat} :
    inSub l n k = false ↔ (k + 2 ^ l ≤ n ∨ n + 2 ^ l ≤ k) := by
  constructor
  · intro h
    by_contra hc
    push_neg at hc
    have : inSub l n k = true := inSub_iff.mpr (by omega)
    rw [h] at this
    cases this
  · intro h
    rcases hc : inSub l n k with _ | _
    · rfl
    · rw [inSub_iff] at hc
      omega

theorem scanl_max_getD_zero (b : Nat) (l : List Nat) :
    (List.scanl max b l).getD 0 0 = b := by
  cases l <;> rfl

theorem scanl_max_getD_succ :
    ∀ (l : List Nat) (b k : Nat), k < l.length →
      (List.scanl max b l).getD (k + 1) 0 =
        max ((List.scanl max b l).getD k 0) (l.getD k 0) := by
  intro l
  induction l with
  | nil =>
    intro b k hk
    simp at hk
  | cons a t ih =>
    intro b k hk
    rw [List.scanl_cons, List.singleton_append]
    match k with
    | 0 =>
      rw [List.getD_cons_succ, scanl_max_getD_zero, List.getD_cons_zero, List.getD_cons_zero]
    | k + 1 =>
      rw [List.getD_cons_succ, List.getD_cons_succ, List.getD_cons_succ,
        ih (max b a) k (by simpa using hk)]

/-- The running max array holds the prefix maxima of the ends. -/
theorem running_max_end_getD {Item : Type} (ge : Item → Nat) (s : List Item) :
    ∀ k, k < s.length →
      (running_max_end ge s).getD k 0 = maxEndOver ge s (fun j => decide (j ≤ k)) := by
  intro k
  induction k with
  | zero =>
    intro hk
    rcases s with _ | ⟨a, t⟩
    · simp at hk
    · show (List.scanl max (ge a) (t.map ge)).getD 0 0 = _
      rw [scanl_max_getD_zero]
      have hsingle := maxEndOver_single ge (a :: t) (p := fun j => decide (j ≤ 0))
        (n := 0) (by simp) (fun j _ => by
          apply Bool.eq_iff_iff.mpr
          simp only [decide_eq_true_eq, beq_iff_eq]
          omega)
      rw [hsingle]
      rw [endAt_eq ge (a :: t) (by simp)]
      rfl
  | succ k ih =>
    intro hk
    rcases s with _ | ⟨a, t⟩
    · simp at hk
    · have hkt : k < t.length := by
        simp only [List.length_cons] at hk
        omega
      show (List.scanl max (ge a) (t.map ge)).getD (k + 1) 0 = _
      rw [scanl_max_getD_succ (t.map ge) (ge a) k (by simpa using hkt)]
      have hih := ih (by simp only [List.length_cons]; omega)
      rw [show (List.scanl max (ge a) (t.map ge)).getD k 0 =
        (running_max_end ge (a :: t)).getD k 0 from rfl, hih]
      have hmap : (t.map ge).getD k 0 = endAt ge (a :: t) (k + 1) := by
        rw [map_getD_endAt]
        unfold endAt
        rw [List.getElem?_cons_succ]
      rw [hmap]
      have hor := maxEndOver_or ge (a :: t) (r := fun j => decide (j ≤ k + 1))
        (p := fun j => decide (j ≤ k)) (q := fun j => j == k + 1) (fun j _ => by
          apply Bool.eq_iff_iff.mpr
          simp only [decide_eq_true_eq, Bool.or_eq_true, beq_iff_eq]
          omega)
      rw [hor]
      have hsingle := maxEndOver_single ge (a :: t) (p := fun j => j == k + 1)
        (n := k + 1) hk (fun j _ => rfl)
      rw [hsingle]

/-- The backward walk lands at or below its start, everything strictly
between is tied on begin, and it stops only at a different begin or rank
zero. -/
theorem skipTies_spec {Item : Type} (gb : Item → Nat) (s : List Item) (b : Nat) :
    ∀ leq, skipTies gb s b leq ≤ leq ∧
      (∀ j, skipTies gb s b leq < j → j ≤ leq → begAt gb s j = b) ∧
      (begAt gb s (skipTies gb s b leq) ≠ b ∨ skipTies gb s b leq = 0) := by
  intro leq
  induction leq with
  | zero =>
    refine ⟨Nat.le_refl _, ?_, Or.inr rfl⟩
    intro j hj1 hj2
    simp only [skipTies] at hj1
    omega
  | succ leq ih =>
    by_cases hb : begAt gb s (leq + 1) = b
    · rw [show skipTies gb s b (leq + 1) = skipTies gb s b leq from by
        rw [skipTies, if_pos hb]]
      obtain ⟨ih1, ih2, ih3⟩ := ih
      refine ⟨by omega, ?_, ih3⟩
      intro j hj1 hj2
      rcases Nat.lt_or_ge j (leq + 1) with hlt | hge2
      · exact ih2 j hj1 (by omega)
      · have hje : j = leq + 1 := by omega
        rw [hje]
        exact hb
    · rw [show skipTies gb s b (leq + 1) = leq + 1 from by
        rw [skipTies, if_neg hb]]
      refine ⟨Nat.le_refl _, ?_, Or.inl hb⟩
      intro j hj1 hj2
      omega

/-- Correctness of the `outside_max_end` fill loop on a sorted array. -/
theorem ome_list_correct {Item : Type} (gb ge : Item → Nat) (s : List Item)
    (Hsort : ∀ i j, i ≤ j → j < s.length → begAt gb s i ≤ begAt gb s j)
    {n : Nat} (hn : n < s.length) :
    (outside_max_end_list gb ge s).getD n 0 = ome_spec gb ge s n := by
  unfold outside_max_end_list
  rw [getD_map_range _ _ hn]
  obtain ⟨l, hlev⟩ : ∃ l, level n = l := ⟨_, rfl⟩
  have hge := level_ge hlev
  have hposl : 0 < 2 ^ l := Nat.pos_pow_of_pos _ (by omega)
  have hlc : leftmost_child n = n - (2 ^ l - 1) := by
    unfold leftmost_child
    rw [hlev]
  unfold ome_spec
  rw [hlev]
  by_cases h0 : 0 < leftmost_child n
  · rw [if_pos h0]
    obtain ⟨leq, hleq⟩ : ∃ leq,
        skipTies gb s (begAt gb s n) (leftmost_child n - 1) = leq := ⟨_, rfl⟩
    rw [hleq]
    obtain ⟨hw1, hw2, hw3⟩ := skipTies_spec gb s (begAt gb s n) (leftmost_child n - 1)
    rw [hleq] at hw1 hw2 hw3
    have hleqN : leq < s.length := by omega
    by_cases hlt : begAt gb s leq < begAt gb s n
    · rw [if_pos hlt]
      have hpoint : ∀ k, k < s.length →
          (!inSub l n k && decide (begAt gb s k < begAt gb s n)) =
            decide (k ≤ leq) := by
        intro k hk
        by_cases hkle : k ≤ leq
        · have hbk : begAt gb s k < begAt gb s n := by
            have := Hsort k leq hkle hleqN
            omega
          have hsub : inSub l n k = false := by
            rw [inSub_false_iff]
            left
            omega
          simp [hsub, hbk, hkle]
        · simp only [decide_eq_false_iff_not.mpr hkle]
          rcases Nat.lt_or_ge k (leftmost_child n) with hklc | hkge
          · have hbk : begAt gb s k = begAt gb s n := hw2 k (by omega) (by omega)
            simp [hbk]
          · rcases Nat.lt_or_ge k (n + 2 ^ l) with hkin | hkout
            · have hsub : inSub l n k = true := by
                rw [inSub_iff]
                omega
              simp [hsub]
            · have hbk : begAt gb s n ≤ begAt gb s k := Hsort n k (by omega) hk
              have hnb : ¬ begAt gb s k < begAt gb s n := by omega
              simp [hnb]
      rw [maxEndOver_congr ge s hpoint]
      rw [running_max_end_getD ge s leq hleqN]
    · rw [if_neg hlt]
      have hleq0 : leq = 0 := by
        rcases hw3 with hne | h0'
        · exfalso
          have := Hsort leq n (by omega) hn
          omega
        · exact h0'
      have hbeq : ∀ j, j < leftmost_child n → begAt gb s j = begAt gb s n := by
        intro j hj
        rcases Nat.eq_or_lt_of_le (Nat.zero_le j) with hj0 | hjpos
        · rw [← hj0]
          have hb0 : begAt gb s 0 ≤ begAt gb s n := Hsort 0 n (by omega) hn
          have : begAt gb s leq = begAt gb s n := by
            have := Hsort leq n (by omega) hn
            omega
          rw [hleq0] at this
          exact this
        · exact hw2 j (by omega) (by omega)
      symm
      apply maxEndOver_empty
      intro k hk
      rcases hsub : inSub l n k with _ | _
      · rw [inSub_false_iff] at hsub
        simp only [Bool.not_false, Bool.true_and, decide_eq_false_iff_not]
        rcases hsub with h1 | h2
        · have hklc : k < leftmost_child n := by omega
          rw [hbeq k hklc]
          omega
        · have := Hsort n k (by omega) hk
          omega
      · simp
  · rw [if_neg h0]
    symm
    apply maxEndOver_empty
    intro k hk
    rcases hsub : inSub l n k with _ | _
    · rw [inSub_false_iff] at hsub
      simp only [Bool.not_false, Bool.true_and, decide_eq_false_iff_not]
      rcases hsub with h1 | h2
      · omega
      · have := Hsort n k (by omega) hk
        omega
    · simp

/-! ## Outside min beg -/

/-- Correctness of the constant-time `outside_min_beg` computation on a
sorted array. -/
theorem omb_correct {Item : Type} (gb : Item → Nat) (s : List Item)
    (Hsort : ∀ i j, i ≤ j → j < s.length → begAt gb s i ≤ begAt gb s j)
    {n : Nat} (hn : n < s.length) :
    outside_min_beg gb s n = omb_spec gb s n := by
  obtain ⟨l, hlev⟩ : ∃ l, level n = l := ⟨_, rfl⟩
  have hge := level_ge hlev
  have hposl : 0 < 2 ^ l := Nat.pos_pow_of_pos _ (by omega)
  have hlc : leftmost_child n = n - (2 ^ l - 1) := by
    unfold leftmost_child
    rw [hlev]
  have hrc : rightmost_child n = n + (2 ^ l - 1) := by
    unfold rightmost_child
    rw [hlev]
  unfold outside_min_beg omb_spec
  rw [hlev]
  by_cases hb1 : 0 < leftmost_child n ∧ begAt gb s (leftmost_child n - 1) = begAt gb s n
  · rw [if_pos hb1]
    have hmem : begAt gb s n ∈ ((List.range s.length).filter
        (fun k => !inSub l n k && decide (begAt gb s n ≤ begAt gb s k))).map
        (begAt gb s) := by
      rw [List.mem_map]
      refine ⟨leftmost_child n - 1, ?_, hb1.2⟩
      rw [List.mem_filter, List.mem_range]
      refine ⟨by omega, ?_⟩
      have hsub : inSub l n (leftmost_child n - 1) = false := by
        rw [inSub_false_iff]
        left
        omega
      simp [hsub, hb1.2]
    have hmin : (((List.range s.length).filter
        (fun k => !inSub l n k && decide (begAt gb s n ≤ begAt gb s k))).map
        (begAt gb s)).min? = some (begAt gb s n) := by
      rw [List.min?_eq_some_iff']
      refine ⟨hmem, ?_⟩
      intro x hx
      rw [List.mem_map] at hx
      obtain ⟨k, hkf, hkx⟩ := hx
      rw [List.mem_filter, List.mem_range] at hkf
      have := hkf.2
      simp only [Bool.and_eq_true, decide_eq_true_eq] at this
      omega
    rw [hmin]
    rfl
  · rw [if_neg hb1]
    have hA : ∀ k, k < leftmost_child n → ¬ begAt gb s n ≤ begAt gb s k := by
      intro k hk
      have h0 : 0 < leftmost_child n := by omega
      have hne : begAt gb s (leftmost_child n - 1) ≠ begAt gb s n := by
        intro he
        exact hb1 ⟨h0, he⟩
      have h1 : begAt gb s (leftmost_child n - 1) ≤ begAt gb s n :=
        Hsort _ n (by omega) hn
      have h2 : begAt gb s k ≤ begAt gb s (leftmost_child n - 1) :=
        Hsort k _ (by omega) (by omega)
      omega
    by_cases hrcN : rightmost_child n < s.length - 1
    · rw [if_pos hrcN]
      have hmem : begAt gb s (rightmost_child n + 1) ∈ ((List.range s.length).filter
          (fun k => !inSub l n k && decide (begAt gb s n ≤ begAt gb s k))).map
          (begAt gb s) := by
        rw [List.mem_map]
        refine ⟨rightmost_child n + 1, ?_, rfl⟩
        rw [List.mem_filter, List.mem_range]
        refine ⟨by omega, ?_⟩
        have hsub : inSub l n (rightmost_child n + 1) = false := by
          rw [inSub_false_iff]
          right
          omega
        have hble : begAt gb s n ≤ begAt gb s (rightmost_child n + 1) :=
          Hsort n _ (by omega) (by omega)
        simp [hsub, hble]
      have hmin : (((List.range s.length).filter
          (fun k => !inSub l n k && decide (begAt gb s n ≤ begAt gb s k))).map
          (begAt gb s)).min? = some (begAt gb s (rightmost_child n + 1)) := by
        rw [List.min?_eq_some_iff']
        refine ⟨hmem, ?_⟩
        intro x hx
        rw [List.mem_map] at hx
        obtain ⟨k, hkf, hkx⟩ := hx
        rw [List.mem_filter, List.mem_range] at hkf
        obtain ⟨hkN, hkp⟩ := hkf
        simp only [Bool.and_eq_true, decide_eq_true_eq, Bool.not_eq_true'] at hkp
        obtain ⟨hksub, hkble⟩ := hkp
        rw [inSub_false_iff] at hksub
        rcases hksub with hlow | hhigh
        · exfalso
          exact hA k (by omega) hkble
        · have : begAt gb s (rightmost_child n + 1) ≤ begAt gb s k :=
            Hsort _ k (by omega) hkN
          omega
      rw [hmin]
      rfl
    · rw [if_neg hrcN]
      have hnil : ((List.range s.length).filter
          (fun k => !inSub l n k && decide (begAt gb s n ≤ begAt gb s k))) = [] := by
        rw [List.filter_eq_nil_iff]
        intro k hk
        rw [List.mem_range] at hk
        simp only [Bool.and_eq_true, decide_eq_true_eq, Bool.not_eq_true', not_and]
        intro hksub
        rw [inSub_false_iff] at hksub
        rcases hksub with hlow | hhigh
        · exact hA k (by omega)
        · exfalso
          omega
      rw [hnil]
      rfl

/-- The specified outside min beg is a lower bound on the begin of every
qualifying outside node. -/
theorem omb_spec_le {Item : Type} (gb : Item → Nat) (s : List Item) {n k : Nat}
    (hk : k < s.length) (hsub : inSub (level n) n k = false)
    (hble : begAt gb s n ≤ begAt gb s k) : omb_spec gb s n ≤ begAt gb s k := by
  unfold omb_spec
  have hmem : begAt gb s k ∈ ((List.range s.length).filter
      (fun j => !inSub (level n) n j && decide (begAt gb s n ≤ begAt gb s j))).map
      (begAt gb s) := by
    rw [List.mem_map]
    refine ⟨k, ?_, rfl⟩
    rw [List.mem_filter, List.mem_range]
    exact ⟨hk, by simp [hsub, hble]⟩
  rcases hmin : (((List.range s.length).filter
      (fun j => !inSub (level n) n j && decide (begAt gb s n ≤ begAt gb s j))).map
      (begAt gb s)).min? with _ | m
  · rw [List.min?_eq_none_iff] at hmin
    rw [hmin] at hmem
    cases hmem
  · have := (List.min?_eq_some_iff'.mp hmin).2 _ hmem
    simpa using this

/-! ## The climb -/

/-- The climb loop, given enough fuel, ends inside the full tree, and
either at the root or at a subtree that is real and satisfies both
outside-pruning conditions. -/
theorem climbGo_post {Item : Type} (gb : Item → Nat) (s : List Item) (ome : List Nat)
    (q1 q2 : Nat) (hN : s.length ≠ 0) :
    ∀ fuel r cost, r < full_size s.length →
      root_level s.length - level r < fuel →
      (climbGo gb s ome (root s.length) q1 q2 fuel r cost).1 < full_size s.length ∧
      ((climbGo gb s ome (root s.length) q1 q2 fuel r cost).1 = root s.length ∨
        ((climbGo gb s ome (root s.length) q1 q2 fuel r cost).1 < s.length ∧
          ome.getD (climbGo gb s ome (root s.length) q1 q2 fuel r cost).1 0 ≤ q1 ∧
          q2 ≤ outside_min_beg gb s
            (climbGo gb s ome (root s.length) q1 q2 fuel r cost).1)) := by
  intro fuel
  induction fuel with
  | zero =>
    intro r cost hr hf
    omega
  | succ fuel ih =>
    intro r cost hr hf
    by_cases hcond : r ≠ root s.length ∧ (s.length ≤ r ∨ q1 < ome.getD r 0 ∨
        outside_min_beg gb s r < q2)
    · rw [show climbGo gb s ome (root s.length) q1 q2 (fuel + 1) r cost =
          climbGo gb s ome (root s.length) q1 q2 fuel (parent r) (cost + 1) from by
        rw [climbGo, if_pos hcond]]
      apply ih
      · exact parent_lt_full_size hN hr hcond.1
      · have h1 : level (parent r) = level r + 1 := level_parent rfl
        have h2 := level_lt_root_level hN hr hcond.1
        rw [h1]
        omega
    · rw [show climbGo gb s ome (root s.length) q1 q2 (fuel + 1) r cost = (r, cost) from by
        rw [climbGo, if_neg hcond]]
      simp only [Prod.fst]
      by_cases hroot : r = root s.length
      · exact ⟨hr, Or.inl hroot⟩
      · refine ⟨hr, Or.inr ?_⟩
        push_neg at hcond
        have h3 := hcond hroot
        exact ⟨by omega, by omega, by omega⟩

/-- A prediction from a built `iitii` index is a real rank. -/
theorem predict_leaf_lt {Item : Type} (gb ge : Item → Nat) (items : List Item)
    (dom : Nat) (M : Nat → Option DomainParams) (q : Nat) {p : Nat}
    (h : predict_leaf gb ge (iitii_build items dom M) q = some p) :
    p < (sortedItems gb ge items).length := by
  have hlen : (sortedItems gb ge items).length = items.length := sortedItems_length gb ge items
  unfold predict_leaf at h
  by_cases hemp : items.length = 0
  · rw [show (iitii_build items dom M).params = fun _ => none from by
      unfold iitii_build
      simp [hemp]] at h
    simp at h
  · rcases hM : (iitii_build items dom M).params
        (which_domain gb ge (iitii_build items dom M) q) with _ | pm
    · rw [hM] at h
      simp at h
    · rw [hM] at h
      simp only [Option.some_inj, show (iitii_build items dom M).items = items from rfl] at h
      rw [← h]
      by_cases hc : 2 ^ pm.lv * (2 * pm.w q + 1) - 1 <
          (sortedItems gb ge items).length
      · rw [if_pos hc]
        exact hc
      · rw [if_neg hc]
        omega

/-- Scanning the subtree where the climb stopped yields the full overlap
filter: the two outside-pruning conditions exclude every real node outside
the subtree. -/
theorem scan_stop_filter {Item : Type} (gb ge : Item → Nat) (s : List Item)
    (Hsort : ∀ i j, i ≤ j → j < s.length → begAt gb s i ≤ begAt gb s j)
    (q1 q2 : Nat) {t : Nat} (htN : t < s.length)
    (home : (outside_max_end_list gb ge s).getD t 0 ≤ q1)
    (homb : q2 ≤ outside_min_beg gb s t) :
    (scan gb ge s (buildIME ge s) (root_level s.length + 1) (some t) q1 q2).2 =
      s.filter (overlapB gb ge q1 q2) := by
  have hN : s.length ≠ 0 := by omega
  obtain ⟨l, hlev⟩ : ∃ l, level t = l := ⟨_, rfl⟩
  have hge := level_ge hlev
  have hposl : 0 < 2 ^ l := Nat.pos_pow_of_pos _ (by omega)
  have hp1 : (2 : Nat) ^ (l + 1) = 2 * 2 ^ l := by ring
  have hlevle : level t ≤ root_level s.length := by
    have h1 := N_le_full_size hN
    rw [full_size_eq hN] at h1
    exact level_le_of_lt (by omega)
  have hscan := scan_eq gb ge s (buildIME ge s) q1 q2
    (fun k j hk hj hsub => buildIME_bound ge s hk hj hsub) Hsort
    l (root_level s.length + 1) t hlev (by omega)
  rw [hscan]
  rw [ome_list_correct gb ge s Hsort htN] at home
  rw [omb_correct gb s Hsort htN] at homb
  have hout : ∀ k, ∀ hkN : k < s.length, inSub l t k = false →
      overlapB gb ge q1 q2 s[k] = false := by
    intro k hkN hsub
    rcases Nat.lt_or_ge (begAt gb s k) (begAt gb s t) with hlt | hge2
    · have hle : endAt ge s k ≤ ome_spec gb ge s t := by
        apply le_maxEndOver ge s _ hkN
        rw [hlev]
        simp [hsub, hlt]
      rw [endAt_eq ge s hkN] at hle
      unfold overlapB
      have hnot : ¬ q1 < ge s[k] := by omega
      simp [hnot]
    · have hle : omb_spec gb s t ≤ begAt gb s k := by
        apply omb_spec_le gb s hkN
        · rw [hlev]
          exact hsub
        · exact hge2
      rw [begAt_eq gb s hkN] at hle
      unfold overlapB
      have hnot : ¬ gb s[k] < q2 := by omega
      simp [hnot]
  rw [← oracle_range_eq_filter gb ge q1 q2 s]
  have hlow : oracleScan gb ge s q1 q2 0 (t + 1 - 2 ^ l) = [] := by
    apply oracleScan_nil
    intro k hk1 hk2 hkN
    apply hout k hkN
    rw [inSub_false_iff]
    left
    omega
  rcases le_or_lt (t + 1 - 2 ^ l + (2 ^ (l + 1) - 1)) s.length with hcase | hcase
  · have hs1 : s.length = (t + 1 - 2 ^ l) + ((2 ^ (l + 1) - 1) +
        (s.length - (t + 1 - 2 ^ l) - (2 ^ (l + 1) - 1))) := by omega
    conv_rhs => rw [hs1]
    rw [oracleScan_append, oracleScan_append, hlow]
    have hhigh : oracleScan gb ge s q1 q2 (0 + (t + 1 - 2 ^ l) + (2 ^ (l + 1) - 1))
        (s.length - (t + 1 - 2 ^ l) - (2 ^ (l + 1) - 1)) = [] := by
      apply oracleScan_nil
      intro k hk1 hk2 hkN
      apply hout k hkN
      rw [inSub_false_iff]
      right
      omega
    rw [hhigh]
    simp
  · have hs1 : s.length = (t + 1 - 2 ^ l) + (s.length - (t + 1 - 2 ^ l)) := by omega
    conv_rhs => rw [hs1]
    rw [oracleScan_append, hlow]
    have hs2 : (2 : Nat) ^ (l + 1) - 1 = (s.length - (t + 1 - 2 ^ l)) +
        ((t + 1 - 2 ^ l) + (2 ^ (l + 1) - 1) - s.length) := by omega
    conv_lhs => rw [hs2]
    rw [oracleScan_append]
    have himag : oracleScan gb ge s q1 q2 (t + 1 - 2 ^ l + (s.length - (t + 1 - 2 ^ l)))
        ((t + 1 - 2 ^ l) + (2 ^ (l + 1) - 1) - s.length) = [] := by
      apply oracleScan_nil
      intro k hk1 hk2 hkN
      omega
    rw [himag]
    simp

/-- The result buffer of `iitii::overlap` on a built index equals that of
`iit::overlap` on the same items, as lists up to nothing at all: the two
are equal. -/
theorem iitii_overlap_items {Item : Type} (gb ge : Item → Nat) (items : List Item)
    (dom : Nat) (M : Nat → Option DomainParams) (q1 q2 : Nat) (c : Counters) :
    (iitii_overlap gb ge (iitii_build items dom M) q1 q2 c).2.1 =
      (iit_overlap gb ge items q1 q2).2 := by
  simp only [iitii_overlap, iit_overlap,
    show (iitii_build items dom M).items = items from rfl]
  rcases hpred : predict_leaf gb ge (iitii_build items dom M) q1 with _ | p
  · rfl
  · have hp := predict_leaf_lt gb ge items dom M q1 hpred
    have hN : (sortedItems gb ge items).length ≠ 0 := by omega
    have hfs := N_le_full_size hN
    obtain ⟨hlt, hpost⟩ := climbGo_post gb (sortedItems gb ge items)
      (outside_max_end_list gb ge (sortedItems gb ge items)) q1 q2 hN
      (root_level (sortedItems gb ge items).length + 1) p 0 (by omega) (by omega)
    have hmono : ∀ i j, i ≤ j → j < (sortedItems gb ge items).length →
        begAt gb (sortedItems gb ge items) i ≤ begAt gb (sortedItems gb ge items) j :=
      fun i j hij hj => begAt_mono gb ge items hij hj
    rcases hpost with hroot | ⟨h1, h2, h3⟩
    · dsimp only
      rw [hroot, scan_root_filter gb ge (sortedItems gb ge items) hmono q1 q2]
    · dsimp only
      rw [scan_stop_filter gb ge (sortedItems gb ge items) hmono q1 q2 h1 h2 h3,
        scan_root_filter gb ge (sortedItems gb ge items) hmono q1 q2]

/-! ## Builder -/

theorem foldl_builder_add {Item : Type} :
    ∀ (l buf : List Item), l.foldl builder_add buf = buf ++ l := by
  intro l
  induction l with
  | nil => intro buf; simp
  | cons a t ih =>
    intro buf
    rw [List.foldl_cons, ih]
    unfold builder_add
    simp

theorem build_stream_eq {Item : Type} (items : List Item) : build_stream items = items := by
  unfold build_stream
  rw [foldl_builder_add]
  simp

theorem build_bulk_eq {Item : Type} (items : List Item) : build_bulk items = items := by
  unfold build_bulk builder_add_all
  rw [foldl_builder_add]
  simp

/-! ## Claims -/

/-- C1: for every index built from any item set in which every item has
`beg ≤ end`, and every query `(qbeg, qend)`, the multiset of items returned by
`overlap` is exactly the multiset of stored items `x` with `end x > qbeg` and
`beg x < qend`. -/
theorem C1_overlap_exact {Item : Type} (gb ge : Item → Nat) (items : List Item)
    (hwf : ∀ x ∈ items, gb x ≤ ge x) (q1 q2 : Nat) :
    (↑(iit_overlap gb ge items q1 q2).2 : Multiset Item) =
      ↑(items.filter (overlapB gb ge q1 q2)) := by
  rw [overlap_eq_filter]
  exact Multiset.coe_eq_coe.mpr ((sortedItems_perm gb ge items).filter _)

theorem C1_overlap_exact_witness :
    (∀ x ∈ [((1:Nat), (5:Nat)), (3, 9), (2, 3)], pair_beg x ≤ pair_end x) ∧
    (↑(iit_overlap pair_beg pair_end [((1:Nat), (5:Nat)), (3, 9), (2, 3)] 2 4).2 :
        Multiset (Nat × Nat)) =
      ↑([((1:Nat), (5:Nat)), (3, 9), (2, 3)].filter (overlapB pair_beg pair_end 2 4)) :=
  ⟨by decide, C1_overlap_exact pair_beg pair_end _ (by decide) 2 4⟩

/-- C2: for every item set, every number of domains ≥ 1, and every query, the
iitii index's `overlap` returns the same multiset of items as the iit index
built from the same item set, whatever the trained model predicts. -/
theorem C2_iitii_equiv {Item : Type} (gb ge : Item → Nat) (items : List Item)
    (dom : Nat) (hdom : 1 ≤ dom) (M : Nat → Option DomainParams) (q1 q2 : Nat)
    (c : Counters) :
    (↑(iitii_overlap gb ge (iitii_build items dom M) q1 q2 c).2.1 : Multiset Item) =
      ↑(iit_overlap gb ge items q1 q2).2 := by
  rw [iitii_overlap_items]

theorem C2_iitii_equiv_witness :
    1 ≤ 2 ∧
    (↑(iitii_overlap trip_beg trip_end
        (iitii_build [((1:Nat), (5:Nat), (0:Nat)), (3, 9, 1), (2, 3, 2)] 2
          (fun _ => some ⟨fun q => q / 4, 1⟩)) 2 4 ⟨0, 0⟩).2.1 :
        Multiset (Nat × Nat × Nat)) =
      ↑(iit_overlap trip_beg trip_end [((1:Nat), (5:Nat), (0:Nat)), (3, 9, 1), (2, 3, 2)] 2 4).2 :=
  ⟨by decide, C2_iitii_equiv trip_beg trip_end _ 2 (by decide) _ 2 4 ⟨0, 0⟩⟩

/-- C3: after construction from any non-empty item set, every real node `n`
stores `inside_max_end n` equal to the maximum of `end` over the real nodes of
its implicit subtree (itself included). -/
theorem C3_inside_max_end {Item : Type} (gb ge : Item → Nat) (items : List Item)
    (hne : items ≠ []) {n : Nat} (hn : n < (sortedItems gb ge items).length) :
    (buildIME ge (sortedItems gb ge items)).getD n 0 =
      subtree_max_end ge (sortedItems gb ge items) n :=
  buildIME_correct ge _ (by rw [sortedItems_length]; simpa using hne) hn

theorem C3_inside_max_end_witness :
    ([((1:Nat), (5:Nat), (0:Nat)), (2, 3, 1), (3, 9, 2), (4, 4, 3), (5, 6, 4)] ≠
        ([] : List (Nat × Nat × Nat))) ∧
    (2 < (sortedItems trip_beg trip_end
        [((1:Nat), (5:Nat), (0:Nat)), (2, 3, 1), (3, 9, 2), (4, 4, 3), (5, 6, 4)]).length) ∧
    (buildIME trip_end (sortedItems trip_beg trip_end
        [((1:Nat), (5:Nat), (0:Nat)), (2, 3, 1), (3, 9, 2), (4, 4, 3), (5, 6, 4)])).getD 2 0 =
      subtree_max_end trip_end (sortedItems trip_beg trip_end
        [((1:Nat), (5:Nat), (0:Nat)), (2, 3, 1), (3, 9, 2), (4, 4, 3), (5, 6, 4)]) 2 :=
  ⟨by decide, by decide,
    C3_inside_max_end trip_beg trip_end _ (by decide) (by decide)⟩

/-- C4: after iitii construction from any non-empty item set, every real node
`n` stores `outside_max_end n` equal to the maximum `end m` over real nodes `m`
outside `n`'s subtree with `beg m < beg n`, or the minimum `Pos` (0) if no such
node exists. -/
theorem C4_outside_max_end {Item : Type} (gb ge : Item → Nat) (items : List Item)
    (hne : items ≠ []) {n : Nat} (hn : n < (sortedItems gb ge items).length) :
    (outside_max_end_list gb ge (sortedItems gb ge items)).getD n 0 =
      ome_spec gb ge (sortedItems gb ge items) n :=
  ome_list_correct gb ge _ (fun i j hij hj => begAt_mono gb ge items hij hj) hn

theorem C4_outside_max_end_witness :
    ([((1:Nat), (5:Nat), (0:Nat)), (2, 3, 1), (3, 9, 2), (4, 4, 3), (5, 6, 4)] ≠
        ([] : List (Nat × Nat × Nat))) ∧
    (3 < (sortedItems trip_beg trip_end
        [((1:Nat), (5:Nat), (0:Nat)), (2, 3, 1), (3, 9, 2), (4, 4, 3), (5, 6, 4)]).length) ∧
    (outside_max_end_list trip_beg trip_end (sortedItems trip_beg trip_end
        [((1:Nat), (5:Nat), (0:Nat)), (2, 3, 1), (3, 9, 2), (4, 4, 3), (5, 6, 4)])).getD 3 0 =
      ome_spec trip_beg trip_end (sortedItems trip_beg trip_end
        [((1:Nat), (5:Nat), (0:Nat)), (2, 3, 1), (3, 9, 2), (4, 4, 3), (5, 6, 4)]) 3 :=
  ⟨by decide, by decide,
    C4_outside_max_end trip_beg trip_end _ (by decide) (by decide)⟩

/-- C5: for every real node `n`, the O(1) `outside_min_beg` computation equals
the minimum `beg m` over real nodes `m` outside `n`'s subtree with
`beg m ≥ beg n`, or `npos` (standing for +∞) when that set is empty. -/
theorem C5_outside_min_beg {Item : Type} (gb ge : Item → Nat) (items : List Item)
    {n : Nat} (hn : n < (sortedItems gb ge items).length) :
    outside_min_beg gb (sortedItems gb ge items) n =
      omb_spec gb (sortedItems gb ge items) n :=
  omb_correct gb _ (fun i j hij hj => begAt_mono gb ge items hij hj) hn

theorem C5_outside_min_beg_witness :
    (1 < (sortedItems trip_beg trip_end
        [((1:Nat), (5:Nat), (0:Nat)), (2, 3, 1), (3, 9, 2), (4, 4, 3)]).length) ∧
    outside_min_beg trip_beg (sortedItems trip_beg trip_end
        [((1:Nat), (5:Nat), (0:Nat)), (2, 3, 1), (3, 9, 2), (4, 4, 3)]) 1 =
      omb_spec trip_beg (sortedItems trip_beg trip_end
        [((1:Nat), (5:Nat), (0:Nat)), (2, 3, 1), (3, 9, 2), (4, 4, 3)]) 1 :=
  ⟨by decide, C5_outside_min_beg trip_beg trip_end _ (by decide)⟩

/-- C6: the node array is sorted: for all ranks `i < j < N`, either
`beg i < beg j`, or the begs tie and `end i ≤ end j`. -/
theorem C6_sort_order {Item : Type} (gb ge : Item → Nat) (items : List Item)
    {i j : Nat} (hij : i < j) (hj : j < (sortedItems gb ge items).length) :
    begAt gb (sortedItems gb ge items) i < begAt gb (sortedItems gb ge items) j ∨
      (begAt gb (sortedItems gb ge items) i = begAt gb (sortedItems gb ge items) j ∧
        endAt ge (sortedItems gb ge items) i ≤ endAt ge (sortedItems gb ge items) j) := by
  rcases Nat.lt_or_ge (begAt gb (sortedItems gb ge items) i)
      (begAt gb (sortedItems gb ge items) j) with h | h
  · exact Or.inl h
  · have hle := begAt_mono gb ge items (Nat.le_of_lt hij) hj
    have heq : begAt gb (sortedItems gb ge items) i = begAt gb (sortedItems gb ge items) j := by
      omega
    exact Or.inr ⟨heq, endAt_tie_mono gb ge items hij hj heq⟩

theorem C6_sort_order_witness :
    (1:Nat) < 3 ∧
    (3 < (sortedItems trip_beg trip_end
        [((4:Nat), (4:Nat), (0:Nat)), (2, 3, 1), (2, 9, 2), (4, 1, 3)]).length) ∧
    (begAt trip_beg (sortedItems trip_beg trip_end
        [((4:Nat), (4:Nat), (0:Nat)), (2, 3, 1), (2, 9, 2), (4, 1, 3)]) 1 <
      begAt trip_beg (sortedItems trip_beg trip_end
        [((4:Nat), (4:Nat), (0:Nat)), (2, 3, 1), (2, 9, 2), (4, 1, 3)]) 3 ∨
      (begAt trip_beg (sortedItems trip_beg trip_end
          [((4:Nat), (4:Nat), (0:Nat)), (2, 3, 1), (2, 9, 2), (4, 1, 3)]) 1 =
        begAt trip_beg (sortedItems trip_beg trip_end
          [((4:Nat), (4:Nat), (0:Nat)), (2, 3, 1), (2, 9, 2), (4, 1, 3)]) 3 ∧
        endAt trip_end (sortedItems trip_beg trip_end
          [((4:Nat), (4:Nat), (0:Nat)), (2, 3, 1), (2, 9, 2), (4, 1, 3)]) 1 ≤
          endAt trip_end (sortedItems trip_beg trip_end
            [((4:Nat), (4:Nat), (0:Nat)), (2, 3, 1), (2, 9, 2), (4, 1, 3)]) 3)) :=
  ⟨by decide, by decide,
    C6_sort_order trip_beg trip_end _ (by decide) (by decide)⟩

/-- C7: evaluation exhibiting the divergence: on an index built from no items,
`overlap(0, 100)` returns the empty result but reports cost 1, not the claimed
cost 0 — the scan still visits the root rank even though `full_size = 0`, so
the source's own `assert(subtree < full_size)` is violated. -/
theorem C7_empty_query_eval :
    iit_overlap pair_beg pair_end [] 0 100 = (1, []) := by
  decide

/-- C8 counterexample: the query `(qbeg, qend) = (10, 5)` has `qbeg ≥ qend`,
yet on an index holding the item `(0, 20)` the overlap result is not empty. -/
theorem C8_counterexample :
    (5:Nat) ≤ 10 ∧ (iit_overlap pair_beg pair_end [(0, 20)] 10 5).2 ≠ [] := by
  exact ⟨by decide, by decide⟩

/-- C8 (amended): when `qbeg ≥ qend`, `overlap` returns exactly the stored
items `x` with `end x > qbeg` and `beg x < qend` — the same characterisation as
for valid queries — which need not be the empty multiset. -/
theorem C8_invalid_range_amended {Item : Type} (gb ge : Item → Nat)
    (items : List Item) (q1 q2 : Nat) (h : q2 ≤ q1) :
    (↑(iit_overlap gb ge items q1 q2).2 : Multiset Item) =
      ↑(items.filter (overlapB gb ge q1 q2)) := by
  rw [overlap_eq_filter]
  exact Multiset.coe_eq_coe.mpr ((sortedItems_perm gb ge items).filter _)

theorem C8_invalid_range_amended_witness :
    (5:Nat) ≤ 10 ∧
    (↑(iit_overlap pair_beg pair_end [((0:Nat), (20:Nat))] 10 5).2 : Multiset (Nat × Nat)) =
      ↑([((0:Nat), (20:Nat))].filter (overlapB pair_beg pair_end 10 5)) :=
  ⟨by decide, C8_invalid_range_amended pair_beg pair_end _ 10 5 (by decide)⟩

/-- C9 counterexample: two insertion orders of the same multiset of items that
tie on `(beg, end)` produce different node arrays, because the sort is not
keyed on the whole item. -/
theorem C9_counterexample :
    [((5:Nat), (10:Nat), (0:Nat)), (5, 10, 1)].Perm
        [((5:Nat), (10:Nat), (1:Nat)), (5, 10, 0)] ∧
    node_array trip_beg trip_end (build_stream [((5:Nat), (10:Nat), (0:Nat)), (5, 10, 1)]) ≠
      node_array trip_beg trip_end (build_stream [((5:Nat), (10:Nat), (1:Nat)), (5, 10, 0)]) := by
  exact ⟨by decide, by decide⟩

/-- C9 (amended): in a fixed insertion order the one-at-a-time and bulk
ingestion paths buffer identically; and across any two insertion orders of the
same multiset, the built indices store the same multiset of nodes and answer
every query with the same multiset of items — but the node arrays themselves
need not be identical when items tie on `(beg, end)`. -/
theorem C9_builder_amended {Item : Type} (gb ge : Item → Nat) (l l' : List Item)
    (hperm : l.Perm l') :
    build_stream l = build_bulk l ∧
    (↑(sortedItems gb ge (build_stream l)) : Multiset Item) =
      ↑(sortedItems gb ge (build_stream l')) ∧
    ∀ q1 q2 : Nat,
      (↑(iit_overlap gb ge (build_stream l) q1 q2).2 : Multiset Item) =
        ↑(iit_overlap gb ge (build_stream l') q1 q2).2 := by
  refine ⟨by rw [build_stream_eq, build_bulk_eq], ?_, ?_⟩
  · rw [build_stream_eq, build_stream_eq]
    exact Multiset.coe_eq_coe.mpr
      (((sortedItems_perm gb ge l).trans hperm).trans (sortedItems_perm gb ge l').symm)
  · intro q1 q2
    rw [build_stream_eq, build_stream_eq, overlap_eq_filter, overlap_eq_filter]
    exact Multiset.coe_eq_coe.mpr
      ((((sortedItems_perm gb ge l).trans hperm).trans
        (sortedItems_perm gb ge l').symm).filter _)

theorem C9_builder_amended_witness :
    [((5:Nat), (9:Nat), (0:Nat)), (2, 4, 1)].Perm
        [((2:Nat), (4:Nat), (1:Nat)), (5, 9, 0)] ∧
    (↑(iit_overlap trip_beg trip_end
          (build_stream [((5:Nat), (9:Nat), (0:Nat)), (2, 4, 1)]) 3 6).2 :
        Multiset (Nat × Nat × Nat)) =
      ↑(iit_overlap trip_beg trip_end
          (build_stream [((2:Nat), (4:Nat), (1:Nat)), (5, 9, 0)]) 3 6).2 :=
  ⟨by decide, (C9_builder_amended trip_beg trip_end _ _ (by decide)).2.2 3 6⟩

/-- C10: `iitii::overlap` touches the two diagnostic counters and nothing
else, and only on the predicted path: with no prediction it behaves exactly as
the root scan of `iit_base::overlap` and returns the counters unchanged; with a
prediction it increments `queries` by exactly 1 and `total_climb_cost` by
exactly the number of climb steps taken. -/
theorem C10_counters_frame {Item : Type} (gb ge : Item → Nat) (t : IitiiIndex Item)
    (q1 q2 : Nat) (c : Counters) :
    (iitii_overlap gb ge t q1 q2 c).2.2 =
      (match predict_leaf gb ge t q1 with
       | none => c
       | some p => ⟨c.queries + 1, c.total_climb_cost + climbSteps gb ge t q1 q2 p⟩) ∧
    (match predict_leaf gb ge t q1 with
     | none =>
       (iitii_overlap gb ge t q1 q2 c).1 = (iit_overlap gb ge t.items q1 q2).1 ∧
       (iitii_overlap gb ge t q1 q2 c).2.1 = (iit_overlap gb ge t.items q1 q2).2
     | some _ => True) := by
  rcases hpred : predict_leaf gb ge t q1 with _ | p <;>
    simp only [iitii_overlap, climbSteps, iit_overlap, hpred]
  · exact ⟨trivial, trivial, trivial⟩
  · exact ⟨trivial, trivial⟩

end Iitii
